import Mathlib

/-!
Verification of the frame-transformation core of `video_to_df`
(`src/video_to_df/src/sdf.rs`, `monoframe.rs`, `functions.rs`).

Machine integers (`usize`, `u16`, `u8`) are modelled as `ℕ`, with explicit
`% 65536` where the source truncates to `u16`.  The source's `f32`
arithmetic is modelled exactly over `ℚ` with `round`
(round-half-away-from-zero; all rounded values here are non-negative, so
this agrees with Rust's `f32::round`).  A Rust panic is modelled as
`Except.error`/`Option.none` carrying the panic message where one exists.
-/

namespace VideoToDF

/-- One guarded relaxation step of the forward raster pass: when the guard
`c` holds (the neighbor is within bounds), lower the current distance `cur`
to `min cur (nb + 1)`; otherwise keep `cur`.  This is one `if` block of the
loop body of `chebyshev_sdf_forward_pass` in `sdf.rs` (lines 127–149). -/
def relaxStep (c : Prop) [Decidable c] (cur nb : ℕ) : ℕ :=
  if c then min cur (nb + 1) else cur

/-- The loop body of `chebyshev_sdf_forward_pass` (`sdf.rs` lines 121–153)
at pixel `(x, y)` of a row-major `width × height` field `f`
(`idx = y*width + x`): relax against the already-visited neighbors
left, top-right, top, top-left, in source order. -/
def fwdRelax (width : ℕ) (f : List ℕ) (x y : ℕ) : ℕ :=
  let idx := y * width + x
  let d0 := f.getD idx 0
  let d1 := relaxStep (x ≠ 0) d0 (f.getD (idx - 1) 0)
  let d2 := relaxStep (x ≠ width - 1 ∧ y ≠ 0) d1 (f.getD (idx - width + 1) 0)
  let d3 := relaxStep (y ≠ 0) d2 (f.getD (idx - width) 0)
  relaxStep (x ≠ 0 ∧ y ≠ 0) d3 (f.getD (idx - width - 1) 0)

/-- The first `k` iterations of the raster loop of
`chebyshev_sdf_forward_pass`: pixels are visited in index order
`idx = 0, 1, …` (equivalently `y` outer, `x` inner, with `x = idx % width`,
`y = idx / width`), updating the buffer in place (modelled by `List.set`). -/
def passUpTo (width : ℕ) (f : List ℕ) : ℕ → List ℕ
  | 0 => f
  | k + 1 =>
    let g := passUpTo width f k
    g.set k (fwdRelax width g (k % width) (k / width))

/-- `chebyshev_sdf_forward_pass` (`sdf.rs` lines 113–155): one forward
raster sweep over all `width * height` pixels. -/
def chebyshev_sdf_forward_pass (f : List ℕ) (width height : ℕ) : List ℕ :=
  passUpTo width f (width * height)

/-- The seed initialisation shared by `chebyshev_sdf_below` and
`chebyshev_sdf_above` (`sdf.rs` lines 56–67 and 88–99): a `width*height`
buffer filled with the sentinel `width + height`, then zeroed at every
position (within the zipped image prefix) whose pixel value satisfies the
seed predicate `p`. -/
def seedInit (image : List ℕ) (width height : ℕ) (p : ℕ → Prop) [DecidablePred p] :
    List ℕ :=
  (List.range (width * height)).map fun j =>
    if j < image.length ∧ p (image.getD j 0) then 0 else width + height

/-- `chebyshev_sdf_below` (`sdf.rs` lines 49–79): seeds are the pixels with
value `≤ threshold`; forward pass, reverse the buffer, identical forward
pass, reverse back. -/
def chebyshev_sdf_below (image : List ℕ) (width height threshold : ℕ) : List ℕ :=
  let f0 := seedInit image width height (fun v => v ≤ threshold)
  let f1 := chebyshev_sdf_forward_pass f0 width height
  let f2 := chebyshev_sdf_forward_pass f1.reverse width height
  f2.reverse

/-- `chebyshev_sdf_above` (`sdf.rs` lines 81–111): seeds are the pixels with
value `> threshold`; forward pass, reverse the buffer, identical forward
pass, reverse back. -/
def chebyshev_sdf_above (image : List ℕ) (width height threshold : ℕ) : List ℕ :=
  let f0 := seedInit image width height (fun v => threshold < v)
  let f1 := chebyshev_sdf_forward_pass f0 width height
  let f2 := chebyshev_sdf_forward_pass f1.reverse width height
  f2.reverse

/-- Byte normalisation of one `above` distance (`sdf.rs` lines 17–23):
`(1 - dist/max) * 127`, rounded, clamped to `[0, 127]`, cast to `u8`.
When `mx = 0` the source computes `0.0/0.0 = NaN`, `NaN.round() = NaN`,
`NaN.clamp(0.0, 127.0) = NaN`, and `NaN as u8 = 0`; the `mx = 0` branch
records that value explicitly. -/
def aboveByte (dist mx : ℕ) : ℕ :=
  if mx = 0 then 0
  else (min 127 (max 0 (round ((1 - (dist : ℚ) / mx) * 127)))).toNat

/-- Byte normalisation of one `below` distance (`sdf.rs` lines 24–30):
`128 + clamp(round((dist/max) * 127))`.  When `mx = 0` the source computes
`128 + (NaN as u8) = 128 + 0`; `ℚ`'s `dist/0 = 0` convention yields the
same byte, so no separate branch is needed. -/
def belowByte (dist mx : ℕ) : ℕ :=
  128 + (min 127 (max 0 (round (((dist : ℚ) / mx) * 127)))).toNat

/-- `binary_sdf` (`sdf.rs` lines 3–47), the dual-sided signed transform on a
frame's pixel buffer: compute both one-sided fields at threshold 127, take
each field's maximum (`Except.error msg` models the Rust panic
`.expect(msg)` on an empty field — the Rust function has no error channel),
normalise each side, and combine per pixel: the below byte unless it equals
exactly 128, in which case the above byte. -/
def binary_sdf (image : List ℕ) (width height : ℕ) : Except String (List ℕ) :=
  let above_distances := chebyshev_sdf_above image width height 127
  let below_distances := chebyshev_sdf_below image width height 127
  match above_distances.max?, below_distances.max? with
  | some above_max, some below_max =>
    let above_bytes := above_distances.map fun d => aboveByte d above_max
    let below_bytes := below_distances.map fun d => belowByte d below_max
    Except.ok ((below_bytes.zip above_bytes).map fun bp =>
      if bp.1 = 128 then bp.2 else bp.1)
  | _, _ => Except.error "SDF should never have size 0"

/-- Chebyshev (king-move) distance between the grid positions `(x, y)` and
`(a, b)`, over `ℕ` coordinates: `max |x - a| |y - b|`. -/
def chebDist (x y a b : ℕ) : ℕ :=
  max (max (x - a) (a - x)) (max (y - b) (b - y))

/-- Specification-side brute force: the Chebyshev distance from `(x, y)` to
the nearest seed pixel of `image` (a seed is a position `j < image.length`
within the field whose value satisfies `p`, at column `j % width`, row
`j / width`), folding `min` from the sentinel `width + height` (returned
when no seed exists). -/
def nearestSeedDist (image : List ℕ) (width height : ℕ) (p : ℕ → Prop)
    [DecidablePred p] (x y : ℕ) : ℕ :=
  ((List.range (width * height)).filterMap fun j =>
    if j < image.length ∧ p (image.getD j 0) then
      some (chebDist x y (j % width) (j / width))
    else none).foldl min (width + height)

theorem relaxStep_le_cur (c : Prop) [Decidable c] (cur nb : ℕ) :
    relaxStep c cur nb ≤ cur := by
  unfold relaxStep
  split
  · exact min_le_left _ _
  · exact le_rfl

theorem relaxStep_le_nb (c : Prop) [Decidable c] (cur nb : ℕ) (hc : c) :
    relaxStep c cur nb ≤ nb + 1 := by
  unfold relaxStep
  rw [if_pos hc]
  exact min_le_right _ _

theorem le_relaxStep (c : Prop) [Decidable c] (cur nb b : ℕ)
    (hcur : b ≤ cur) (hnb : c → b ≤ nb + 1) : b ≤ relaxStep c cur nb := by
  unfold relaxStep
  split
  · exact le_min hcur (by exact hnb (by assumption))
  · exact hcur

theorem fwdRelax_le_d0 (w : ℕ) (f : List ℕ) (x y : ℕ) :
    fwdRelax w f x y ≤ f.getD (y * w + x) 0 := by
  unfold fwdRelax
  exact le_trans (relaxStep_le_cur _ _ _)
    (le_trans (relaxStep_le_cur _ _ _)
      (le_trans (relaxStep_le_cur _ _ _) (relaxStep_le_cur _ _ _)))

theorem fwdRelax_le_left (w : ℕ) (f : List ℕ) (x y : ℕ) (hx : x ≠ 0) :
    fwdRelax w f x y ≤ f.getD (y * w + x - 1) 0 + 1 := by
  unfold fwdRelax
  exact le_trans (relaxStep_le_cur _ _ _)
    (le_trans (relaxStep_le_cur _ _ _)
      (le_trans (relaxStep_le_cur _ _ _) (relaxStep_le_nb _ _ _ hx)))

theorem fwdRelax_le_upright (w : ℕ) (f : List ℕ) (x y : ℕ)
    (hx : x ≠ w - 1) (hy : y ≠ 0) :
    fwdRelax w f x y ≤ f.getD (y * w + x - w + 1) 0 + 1 := by
  unfold fwdRelax
  exact le_trans (relaxStep_le_cur _ _ _)
    (le_trans (relaxStep_le_cur _ _ _) (relaxStep_le_nb _ _ _ ⟨hx, hy⟩))

theorem fwdRelax_le_up (w : ℕ) (f : List ℕ) (x y : ℕ) (hy : y ≠ 0) :
    fwdRelax w f x y ≤ f.getD (y * w + x - w) 0 + 1 := by
  unfold fwdRelax
  exact le_trans (relaxStep_le_cur _ _ _) (relaxStep_le_nb _ _ _ hy)

theorem fwdRelax_le_upleft (w : ℕ) (f : List ℕ) (x y : ℕ)
    (hx : x ≠ 0) (hy : y ≠ 0) :
    fwdRelax w f x y ≤ f.getD (y * w + x - w - 1) 0 + 1 :=
  relaxStep_le_nb _ _ _ ⟨hx, hy⟩

theorem le_fwdRelax (w : ℕ) (f : List ℕ) (x y b : ℕ)
    (h0 : b ≤ f.getD (y * w + x) 0)
    (h1 : x ≠ 0 → b ≤ f.getD (y * w + x - 1) 0 + 1)
    (h2 : x ≠ w - 1 → y ≠ 0 → b ≤ f.getD (y * w + x - w + 1) 0 + 1)
    (h3 : y ≠ 0 → b ≤ f.getD (y * w + x - w) 0 + 1)
    (h4 : x ≠ 0 → y ≠ 0 → b ≤ f.getD (y * w + x - w - 1) 0 + 1) :
    b ≤ fwdRelax w f x y := by
  unfold fwdRelax
  refine le_relaxStep _ _ _ _ ?_ (fun hc => h4 hc.1 hc.2)
  refine le_relaxStep _ _ _ _ ?_ h3
  refine le_relaxStep _ _ _ _ ?_ (fun hc => h2 hc.1 hc.2)
  exact le_relaxStep _ _ _ _ h0 h1

theorem length_passUpTo (w : ℕ) (f : List ℕ) (k : ℕ) :
    (passUpTo w f k).length = f.length := by
  induction k with
  | zero => rfl
  | succ k ih => simpa [passUpTo] using ih

theorem passUpTo_getD_of_le (w : ℕ) (f : List ℕ) (k j : ℕ) (h : k ≤ j) :
    (passUpTo w f k).getD j 0 = f.getD j 0 := by
  induction k with
  | zero => rfl
  | succ k ih =>
    have hne : k ≠ j := Nat.ne_of_lt h
    calc (passUpTo w f (k + 1)).getD j 0
        = (passUpTo w f k).getD j 0 := by
          simp only [passUpTo, List.getD_eq_getElem?_getD, List.getElem?_set_ne hne]
      _ = f.getD j 0 := ih (Nat.le_of_succ_le h)

theorem passUpTo_succ_getD_self (w : ℕ) (f : List ℕ) (k : ℕ) (hk : k < f.length) :
    (passUpTo w f (k + 1)).getD k 0 =
      fwdRelax w (passUpTo w f k) (k % w) (k / w) := by
  have hlen : k < (passUpTo w f k).length := by rw [length_passUpTo]; exact hk
  simp only [passUpTo, List.getD_eq_getElem?_getD, List.getElem?_set_self hlen,
    Option.getD_some]

theorem passUpTo_getD_stable_succ (w : ℕ) (f : List ℕ) (j k : ℕ) (h : j < k) :
    (passUpTo w f k).getD j 0 = (passUpTo w f (j + 1)).getD j 0 := by
  induction k with
  | zero => exact absurd h (Nat.not_lt_zero j)
  | succ k ih =>
    rcases Nat.lt_succ_iff_lt_or_eq.mp h with h' | h'
    · have hne : k ≠ j := fun he => absurd (he ▸ h') (lt_irrefl j)
      calc (passUpTo w f (k + 1)).getD j 0
          = (passUpTo w f k).getD j 0 := by
            simp only [passUpTo, List.getD_eq_getElem?_getD, List.getElem?_set_ne hne]
        _ = (passUpTo w f (j + 1)).getD j 0 := ih h'
    · rw [h']

theorem passUpTo_getD_stable (w : ℕ) (f : List ℕ) (j k k' : ℕ)
    (h : j < k) (h' : j < k') :
    (passUpTo w f k).getD j 0 = (passUpTo w f k').getD j 0 := by
  rw [passUpTo_getD_stable_succ w f j k h, passUpTo_getD_stable_succ w f j k' h']

theorem getD_reverse (l : List ℕ) (i : ℕ) (h : i < l.length) :
    l.reverse.getD i 0 = l.getD (l.length - 1 - i) 0 := by
  simp only [List.getD_eq_getElem?_getD, List.getElem?_reverse h]

theorem pass_getD_eq (f : List ℕ) (w h : ℕ) (hf : f.length = w * h)
    (k : ℕ) (hk : k < w * h) :
    (chebyshev_sdf_forward_pass f w h).getD k 0 =
      fwdRelax w (passUpTo w f k) (k % w) (k / w) := by
  unfold chebyshev_sdf_forward_pass
  rw [passUpTo_getD_stable w f k (w * h) (k + 1) hk (Nat.lt_succ_self k)]
  exact passUpTo_succ_getD_self w f k (hf ▸ hk)

theorem pass_le_init (f : List ℕ) (w h : ℕ) (hf : f.length = w * h)
    (k : ℕ) (hk : k < w * h) :
    (chebyshev_sdf_forward_pass f w h).getD k 0 ≤ f.getD k 0 := by
  rw [pass_getD_eq f w h hf k hk]
  have := fwdRelax_le_d0 w (passUpTo w f k) (k % w) (k / w)
  rwa [Nat.div_add_mod', passUpTo_getD_of_le w f k k le_rfl] at this

theorem pass_le_left (f : List ℕ) (w h : ℕ) (hf : f.length = w * h)
    (k : ℕ) (hk : k < w * h) (hx : k % w ≠ 0) :
    (chebyshev_sdf_forward_pass f w h).getD k 0 ≤
      (chebyshev_sdf_forward_pass f w h).getD (k - 1) 0 + 1 := by
  have hk0 : k ≠ 0 := by
    rintro rfl
    exact hx (Nat.zero_mod w)
  rw [pass_getD_eq f w h hf k hk]
  have := fwdRelax_le_left w (passUpTo w f k) (k % w) (k / w) hx
  rw [Nat.div_add_mod'] at this
  refine le_trans this ?_
  rw [passUpTo_getD_stable w f (k - 1) k (w * h) (by omega) (by omega)]
  rfl

theorem pass_le_upright (f : List ℕ) (w h : ℕ) (hf : f.length = w * h)
    (k : ℕ) (hk : k < w * h) (hx : k % w ≠ w - 1) (hy : k / w ≠ 0) :
    (chebyshev_sdf_forward_pass f w h).getD k 0 ≤
      (chebyshev_sdf_forward_pass f w h).getD (k - w + 1) 0 + 1 := by
  have hwk : w ≤ k := by
    by_contra hlt
    exact hy (Nat.div_eq_of_lt (Nat.lt_of_not_le hlt))
  have hw2 : 2 ≤ w := by
    match w, hx, hy with
    | 0, hx, hy => exact absurd (Nat.div_zero k) hy
    | 1, hx, hy => exact absurd (by omega) hx
    | w + 2, hx, hy => omega
  rw [pass_getD_eq f w h hf k hk]
  have := fwdRelax_le_upright w (passUpTo w f k) (k % w) (k / w) hx hy
  rw [Nat.div_add_mod'] at this
  refine le_trans this ?_
  rw [passUpTo_getD_stable w f (k - w + 1) k (w * h) (by omega) (by omega)]
  rfl

theorem pass_le_up (f : List ℕ) (w h : ℕ) (hf : f.length = w * h)
    (k : ℕ) (hk : k < w * h) (hy : k / w ≠ 0) :
    (chebyshev_sdf_forward_pass f w h).getD k 0 ≤
      (chebyshev_sdf_forward_pass f w h).getD (k - w) 0 + 1 := by
  have hw1 : 1 ≤ w := by
    by_contra h0
    exact hy (by simp [Nat.le_zero.mp (Nat.le_of_not_lt h0)])
  have hwk : w ≤ k := by
    by_contra hlt
    exact hy (Nat.div_eq_of_lt (Nat.lt_of_not_le hlt))
  rw [pass_getD_eq f w h hf k hk]
  have := fwdRelax_le_up w (passUpTo w f k) (k % w) (k / w) hy
  rw [Nat.div_add_mod'] at this
  refine le_trans this ?_
  rw [passUpTo_getD_stable w f (k - w) k (w * h) (by omega) (by omega)]
  rfl

theorem pass_le_upleft (f : List ℕ) (w h : ℕ) (hf : f.length = w * h)
    (k : ℕ) (hk : k < w * h) (hx : k % w ≠ 0) (hy : k / w ≠ 0) :
    (chebyshev_sdf_forward_pass f w h).getD k 0 ≤
      (chebyshev_sdf_forward_pass f w h).getD (k - w - 1) 0 + 1 := by
  have hw1 : 1 ≤ w := by
    by_contra h0
    exact hy (by simp [Nat.le_zero.mp (Nat.le_of_not_lt h0)])
  have hwk : w ≤ k := by
    by_contra hlt
    exact hy (Nat.div_eq_of_lt (Nat.lt_of_not_le hlt))
  rw [pass_getD_eq f w h hf k hk]
  have := fwdRelax_le_upleft w (passUpTo w f k) (k % w) (k / w) hx hy
  rw [Nat.div_add_mod'] at this
  refine le_trans this ?_
  rw [passUpTo_getD_stable w f (k - w - 1) k (w * h) (by omega) (by omega)]
  rfl

/-- A per-index lower-bound certificate for the forward raster pass: `g`
never drops by more than 1 along any of the four backward neighbor moves
used by the pass (indices in row-major order with row width `w`). -/
def fwdLipschitz (w : ℕ) (g : ℕ → ℕ) : Prop :=
  ∀ k : ℕ,
    (k % w ≠ 0 → g k ≤ g (k - 1) + 1) ∧
    (k % w ≠ w - 1 → k / w ≠ 0 → g k ≤ g (k - w + 1) + 1) ∧
    (k / w ≠ 0 → g k ≤ g (k - w) + 1) ∧
    (k % w ≠ 0 → k / w ≠ 0 → g k ≤ g (k - w - 1) + 1)

theorem passUpTo_lower_bound (f : List ℕ) (w h : ℕ) (hf : f.length = w * h)
    (g : ℕ → ℕ) (hg : fwdLipschitz w g)
    (hinit : ∀ k, k < w * h → g k ≤ f.getD k 0) :
    ∀ m k, k < w * h → g k ≤ (passUpTo w f m).getD k 0 := by
  intro m
  induction m with
  | zero => exact hinit
  | succ m ih =>
    intro k hk
    rcases eq_or_ne k m with rfl | hne
    · rw [passUpTo_succ_getD_self w f k (hf ▸ hk)]
      have hdm := Nat.div_add_mod' k w
      refine le_fwdRelax w (passUpTo w f k) (k % w) (k / w) (g k) ?_ ?_ ?_ ?_ ?_
      · rw [hdm]
        rw [passUpTo_getD_of_le w f k k le_rfl]
        exact hinit k hk
      · intro hx
        rw [hdm]
        refine le_trans ((hg k).1 hx) ?_
        exact Nat.add_le_add_right (ih (k - 1) (by omega)) 1
      · intro hx hy
        rw [hdm]
        have hwk : w ≤ k := by
          by_contra hlt
          exact hy (Nat.div_eq_of_lt (Nat.lt_of_not_le hlt))
        have hw2 : 2 ≤ w := by
          match w, hx, hy with
          | 0, hx, hy => exact absurd (Nat.div_zero k) hy
          | 1, hx, hy => exact absurd (by omega) hx
          | w + 2, hx, hy => omega
        refine le_trans (((hg k).2.1) hx hy) ?_
        exact Nat.add_le_add_right (ih (k - w + 1) (by omega)) 1
      · intro hy
        rw [hdm]
        have hwk : w ≤ k := by
          by_contra hlt
          exact hy (Nat.div_eq_of_lt (Nat.lt_of_not_le hlt))
        have hw1 : 1 ≤ w := by
          by_contra h0
          exact hy (by simp [Nat.le_zero.mp (Nat.le_of_not_lt h0)])
        refine le_trans ((hg k).2.2.1 hy) ?_
        exact Nat.add_le_add_right (ih (k - w) (by omega)) 1
      · intro hx hy
        rw [hdm]
        have hwk : w ≤ k := by
          by_contra hlt
          exact hy (Nat.div_eq_of_lt (Nat.lt_of_not_le hlt))
        refine le_trans ((hg k).2.2.2 hx hy) ?_
        exact Nat.add_le_add_right (ih (k - w - 1) (by omega)) 1
    · have hsetne : m ≠ k := fun he => hne he.symm
      calc g k ≤ (passUpTo w f m).getD k 0 := ih k hk
        _ = (passUpTo w f (m + 1)).getD k 0 := by
          simp only [passUpTo, List.getD_eq_getElem?_getD, List.getElem?_set_ne hsetne]

theorem pass_lower_bound (f : List ℕ) (w h : ℕ) (hf : f.length = w * h)
    (g : ℕ → ℕ) (hg : fwdLipschitz w g)
    (hinit : ∀ k, k < w * h → g k ≤ f.getD k 0) :
    ∀ k, k < w * h → g k ≤ (chebyshev_sdf_forward_pass f w h).getD k 0 :=
  fun k hk => passUpTo_lower_bound f w h hf g hg hinit (w * h) k hk

/-- The four neighbor inequalities satisfied by the output of one forward
raster sweep, in row-major index form. -/
def fwdLocal (F : List ℕ) (w h : ℕ) : Prop :=
  ∀ k, k < w * h →
    (k % w ≠ 0 → F.getD k 0 ≤ F.getD (k - 1) 0 + 1) ∧
    (k % w ≠ w - 1 → k / w ≠ 0 → F.getD k 0 ≤ F.getD (k - w + 1) 0 + 1) ∧
    (k / w ≠ 0 → F.getD k 0 ≤ F.getD (k - w) 0 + 1) ∧
    (k % w ≠ 0 → k / w ≠ 0 → F.getD k 0 ≤ F.getD (k - w - 1) 0 + 1)

theorem pass_fwdLocal (f : List ℕ) (w h : ℕ) (hf : f.length = w * h) :
    fwdLocal (chebyshev_sdf_forward_pass f w h) w h := by
  intro k hk
  exact ⟨pass_le_left f w h hf k hk,
    pass_le_upright f w h hf k hk,
    pass_le_up f w h hf k hk,
    pass_le_upleft f w h hf k hk⟩

theorem rowmajor_mod (x y w : ℕ) (hx : x < w) : (y * w + x) % w = x := by
  rw [mul_comm, Nat.mul_add_mod, Nat.mod_eq_of_lt hx]

theorem rowmajor_div (x y w : ℕ) (hx : x < w) : (y * w + x) / w = y := by
  rw [mul_comm, Nat.mul_add_div ((Nat.zero_le x).trans_lt hx),
    Nat.div_eq_of_lt hx, Nat.add_zero]

theorem rowmajor_lt (x y w h : ℕ) (hx : x < w) (hy : y < h) : y * w + x < w * h := by
  calc y * w + x < y * w + w := Nat.add_lt_add_left hx _
    _ = (y + 1) * w := (Nat.succ_mul y w).symm
    _ ≤ h * w := Nat.mul_le_mul_right w hy
    _ = w * h := Nat.mul_comm h w

theorem local_left (F : List ℕ) (w h : ℕ) (hF : fwdLocal F w h)
    (x y : ℕ) (hx : 0 < x) (hxw : x < w) (hyh : y < h) :
    F.getD (y * w + x) 0 ≤ F.getD (y * w + (x - 1)) 0 + 1 := by
  have hk := rowmajor_lt x y w h hxw hyh
  have h1 := (hF (y * w + x) hk).1
  rw [rowmajor_mod x y w hxw] at h1
  have he : y * w + x - 1 = y * w + (x - 1) := by omega
  rw [he] at h1
  exact h1 (by omega)

theorem local_up (F : List ℕ) (w h : ℕ) (hF : fwdLocal F w h)
    (x y : ℕ) (hy : 0 < y) (hxw : x < w) (hyh : y < h) :
    F.getD (y * w + x) 0 ≤ F.getD ((y - 1) * w + x) 0 + 1 := by
  have hk := rowmajor_lt x y w h hxw hyh
  have h1 := (hF (y * w + x) hk).2.2.1
  rw [rowmajor_div x y w hxw] at h1
  have hsub : (y - 1) * w = y * w - w := by rw [Nat.sub_mul, one_mul]
  have hmul : 1 * w ≤ y * w := Nat.mul_le_mul_right w hy
  rw [one_mul] at hmul
  have he : y * w + x - w = (y - 1) * w + x := by omega
  rw [he] at h1
  exact h1 (by omega)

theorem local_upright (F : List ℕ) (w h : ℕ) (hF : fwdLocal F w h)
    (x y : ℕ) (hy : 0 < y) (hx1 : x + 1 < w) (hyh : y < h) :
    F.getD (y * w + x) 0 ≤ F.getD ((y - 1) * w + (x + 1)) 0 + 1 := by
  have hk := rowmajor_lt x y w h (by omega) hyh
  have h1 := (hF (y * w + x) hk).2.1
  rw [rowmajor_div x y w (by omega), rowmajor_mod x y w (by omega)] at h1
  have hsub : (y - 1) * w = y * w - w := by rw [Nat.sub_mul, one_mul]
  have hmul : 1 * w ≤ y * w := Nat.mul_le_mul_right w hy
  rw [one_mul] at hmul
  have he : y * w + x - w + 1 = (y - 1) * w + (x + 1) := by omega
  rw [he] at h1
  exact h1 (by omega) (by omega)

theorem local_upleft (F : List ℕ) (w h : ℕ) (hF : fwdLocal F w h)
    (x y : ℕ) (hx : 0 < x) (hy : 0 < y) (hxw : x < w) (hyh : y < h) :
    F.getD (y * w + x) 0 ≤ F.getD ((y - 1) * w + (x - 1)) 0 + 1 := by
  have hk := rowmajor_lt x y w h hxw hyh
  have h1 := (hF (y * w + x) hk).2.2.2
  rw [rowmajor_div x y w hxw, rowmajor_mod x y w hxw] at h1
  have hsub : (y - 1) * w = y * w - w := by rw [Nat.sub_mul, one_mul]
  have hmul : 1 * w ≤ y * w := Nat.mul_le_mul_right w hy
  rw [one_mul] at hmul
  have he : y * w + x - w - 1 = (y - 1) * w + (x - 1) := by omega
  rw [he] at h1
  exact h1 (by omega) (by omega)

theorem chain_right (F : List ℕ) (w h : ℕ) (hF : fwdLocal F w h)
    (x y k : ℕ) (hxk : x + k < w) (hyh : y < h) :
    F.getD (y * w + (x + k)) 0 ≤ F.getD (y * w + x) 0 + k := by
  induction k with
  | zero => exact le_rfl
  | succ k ih =>
    calc F.getD (y * w + (x + (k + 1))) 0
        ≤ F.getD (y * w + (x + k)) 0 + 1 := by
          have := local_left F w h hF (x + (k + 1)) y (by omega) (by omega) hyh
          simpa using this
      _ ≤ F.getD (y * w + x) 0 + k + 1 :=
          Nat.add_le_add_right (ih (by omega)) 1

theorem chain_down (F : List ℕ) (w h : ℕ) (hF : fwdLocal F w h)
    (x y k : ℕ) (hxw : x < w) (hyk : y + k < h) :
    F.getD ((y + k) * w + x) 0 ≤ F.getD (y * w + x) 0 + k := by
  induction k with
  | zero => exact le_rfl
  | succ k ih =>
    calc F.getD ((y + (k + 1)) * w + x) 0
        ≤ F.getD ((y + k) * w + x) 0 + 1 := by
          have := local_up F w h hF x (y + (k + 1)) (by omega) hxw (by omega)
          simpa using this
      _ ≤ F.getD (y * w + x) 0 + k + 1 :=
          Nat.add_le_add_right (ih (by omega)) 1

theorem chain_downright (F : List ℕ) (w h : ℕ) (hF : fwdLocal F w h)
    (x y k : ℕ) (hxk : x + k < w) (hyk : y + k < h) :
    F.getD ((y + k) * w + (x + k)) 0 ≤ F.getD (y * w + x) 0 + k := by
  induction k with
  | zero => exact le_rfl
  | succ k ih =>
    calc F.getD ((y + (k + 1)) * w + (x + (k + 1))) 0
        ≤ F.getD ((y + k) * w + (x + k)) 0 + 1 := by
          have := local_upleft F w h hF (x + (k + 1)) (y + (k + 1))
            (by omega) (by omega) (by omega) (by omega)
          simpa using this
      _ ≤ F.getD (y * w + x) 0 + k + 1 :=
          Nat.add_le_add_right (ih (by omega) (by omega)) 1

theorem chain_downleft (F : List ℕ) (w h : ℕ) (hF : fwdLocal F w h)
    (x y k : ℕ) (hkx : k ≤ x) (hxw : x < w) (hyk : y + k < h) :
    F.getD ((y + k) * w + (x - k)) 0 ≤ F.getD (y * w + x) 0 + k := by
  induction k with
  | zero => exact le_rfl
  | succ k ih =>
    calc F.getD ((y + (k + 1)) * w + (x - (k + 1))) 0
        ≤ F.getD ((y + k) * w + (x - k)) 0 + 1 := by
          have := local_upright F w h hF (x - (k + 1)) (y + (k + 1))
            (by omega) (by omega) (by omega)
          have he1 : x - (k + 1) + 1 = x - k := by omega
          have he2 : y + (k + 1) - 1 = y + k := by omega
          rw [he1, he2] at this
          exact this
      _ ≤ F.getD (y * w + x) 0 + k + 1 :=
          Nat.add_le_add_right (ih (by omega) (by omega)) 1

theorem foldl_min_le_init (l : List ℕ) (a : ℕ) : l.foldl min a ≤ a := by
  induction l generalizing a with
  | nil => exact le_rfl
  | cons x l ih => exact le_trans (ih (min a x)) (min_le_left a x)

theorem foldl_min_le_mem (l : List ℕ) (a x : ℕ) (hx : x ∈ l) : l.foldl min a ≤ x := by
  induction l generalizing a with
  | nil => exact absurd hx (List.not_mem_nil x)
  | cons z l ih =>
    rcases List.mem_cons.mp hx with rfl | hx'
    · exact le_trans (foldl_min_le_init l (min a x)) (min_le_right a x)
    · exact ih (min a z) hx'

theorem le_foldl_min (l : List ℕ) (a b : ℕ) (ha : b ≤ a) (hl : ∀ x ∈ l, b ≤ x) :
    b ≤ l.foldl min a := by
  induction l generalizing a with
  | nil => exact ha
  | cons z l ih =>
    exact ih (min a z) (le_min ha (hl z (List.mem_cons_self z l)))
      (fun x hx => hl x (List.mem_cons_of_mem z hx))

theorem foldl_min_attained (l : List ℕ) (a : ℕ) :
    l.foldl min a = a ∨ l.foldl min a ∈ l := by
  induction l generalizing a with
  | nil => exact Or.inl rfl
  | cons z l ih =>
    rcases ih (min a z) with hbase | hmem
    · rcases Nat.le_total a z with hle | hle
      · rw [List.foldl_cons, hbase, min_eq_left hle]
        exact Or.inl rfl
      · rw [List.foldl_cons, hbase, min_eq_right hle]
        exact Or.inr (List.mem_cons_self z l)
    · exact Or.inr (List.mem_cons_of_mem z hmem)

theorem chebDist_self (x y : ℕ) : chebDist x y x y = 0 := by
  unfold chebDist
  omega

theorem chebDist_lt_sum (x y a b w h : ℕ)
    (hx : x < w) (hy : y < h) (ha : a < w) (hb : b < h) :
    chebDist x y a b < w + h := by
  unfold chebDist
  omega

theorem chebDist_step (x y x' y' a b : ℕ)
    (h1 : x ≤ x' + 1) (h2 : x' ≤ x + 1) (h3 : y ≤ y' + 1) (h4 : y' ≤ y + 1) :
    chebDist x y a b ≤ chebDist x' y' a b + 1 := by
  unfold chebDist
  omega

/-- A seed position for predicate `p`: an index into the image whose pixel
value satisfies `p` (the zip in `sdf.rs` only visits indices below the
image length). -/
def isSeed (image : List ℕ) (p : ℕ → Prop) (j : ℕ) : Prop :=
  j < image.length ∧ p (image.getD j 0)

theorem nearestSeedDist_le_sum (image : List ℕ) (w h : ℕ) (p : ℕ → Prop)
    [DecidablePred p] (x y : ℕ) :
    nearestSeedDist image w h p x y ≤ w + h :=
  foldl_min_le_init _ _

theorem nearestSeedDist_le_cheb (image : List ℕ) (w h : ℕ) (p : ℕ → Prop)
    [DecidablePred p] (x y j : ℕ) (hj : j < w * h) (hs : isSeed image p j) :
    nearestSeedDist image w h p x y ≤ chebDist x y (j % w) (j / w) := by
  refine foldl_min_le_mem _ _ _ ?_
  refine List.mem_filterMap.mpr ⟨j, List.mem_range.mpr hj, ?_⟩
  rw [if_pos ⟨hs.1, hs.2⟩]

theorem nearestSeedDist_cases (image : List ℕ) (w h : ℕ) (p : ℕ → Prop)
    [DecidablePred p] (x y : ℕ) :
    nearestSeedDist image w h p x y = w + h ∨
      ∃ j, j < w * h ∧ isSeed image p j ∧
        nearestSeedDist image w h p x y = chebDist x y (j % w) (j / w) := by
  rcases foldl_min_attained
    ((List.range (w * h)).filterMap fun j =>
      if j < image.length ∧ p (image.getD j 0) then
        some (chebDist x y (j % w) (j / w))
      else none) (w + h) with hbase | hmem
  · exact Or.inl hbase
  · rcases List.mem_filterMap.mp hmem with ⟨j, hjr, hj⟩
    by_cases hc : j < image.length ∧ p (image.getD j 0)
    · rw [if_pos hc] at hj
      exact Or.inr ⟨j, List.mem_range.mp hjr, ⟨hc.1, hc.2⟩, (Option.some_inj.mp hj).symm⟩
    · rw [if_neg hc] at hj
      simp at hj

theorem nearestSeedDist_lipschitz (image : List ℕ) (w h : ℕ) (p : ℕ → Prop)
    [DecidablePred p] (x y x' y' : ℕ)
    (h1 : x ≤ x' + 1) (h2 : x' ≤ x + 1) (h3 : y ≤ y' + 1) (h4 : y' ≤ y + 1) :
    nearestSeedDist image w h p x y ≤ nearestSeedDist image w h p x' y' + 1 := by
  rcases nearestSeedDist_cases image w h p x' y' with hbase | ⟨j, hj, hs, heq⟩
  · rw [hbase]
    exact le_trans (nearestSeedDist_le_sum image w h p x y) (Nat.le_succ _)
  · rw [heq]
    exact le_trans (nearestSeedDist_le_cheb image w h p x y j hj hs)
      (chebDist_step x y x' y' (j % w) (j / w) h1 h2 h3 h4)

theorem nearestSeedDist_eq_zero_of_seed (image : List ℕ) (w h : ℕ) (p : ℕ → Prop)
    [DecidablePred p] (x y : ℕ) (hx : x < w) (hy : y < h)
    (hs : isSeed image p (y * w + x)) :
    nearestSeedDist image w h p x y = 0 := by
  have := nearestSeedDist_le_cheb image w h p x y (y * w + x)
    (rowmajor_lt x y w h hx hy) hs
  rw [rowmajor_mod x y w hx, rowmajor_div x y w hx, chebDist_self] at this
  exact Nat.le_zero.mp this

/-- The shared two-pass shape of `chebyshev_sdf_below`/`chebyshev_sdf_above`
after seeding: forward pass, reverse, identical forward pass, reverse
back. -/
def twoPassPipeline (f0 : List ℕ) (w h : ℕ) : List ℕ :=
  (chebyshev_sdf_forward_pass (chebyshev_sdf_forward_pass f0 w h).reverse w h).reverse

theorem chebyshev_sdf_below_eq_pipeline (image : List ℕ) (w h t : ℕ) :
    chebyshev_sdf_below image w h t =
      twoPassPipeline (seedInit image w h fun v => v ≤ t) w h := rfl

theorem chebyshev_sdf_above_eq_pipeline (image : List ℕ) (w h t : ℕ) :
    chebyshev_sdf_above image w h t =
      twoPassPipeline (seedInit image w h fun v => t < v) w h := rfl

theorem length_pass (f : List ℕ) (w h : ℕ) :
    (chebyshev_sdf_forward_pass f w h).length = f.length :=
  length_passUpTo w f (w * h)

theorem length_seedInit (image : List ℕ) (w h : ℕ) (p : ℕ → Prop) [DecidablePred p] :
    (seedInit image w h p).length = w * h := by
  simp [seedInit]

theorem seedInit_getD (image : List ℕ) (w h : ℕ) (p : ℕ → Prop) [DecidablePred p]
    (j : ℕ) (hj : j < w * h) :
    (seedInit image w h p).getD j 0 =
      if j < image.length ∧ p (image.getD j 0) then 0 else w + h := by
  unfold seedInit
  rw [List.getD_eq_getElem?_getD, List.getElem?_map, List.getElem?_range hj]
  rfl

theorem length_twoPassPipeline (f0 : List ℕ) (w h : ℕ) :
    (twoPassPipeline f0 w h).length = f0.length := by
  unfold twoPassPipeline
  rw [List.length_reverse, length_pass, List.length_reverse, length_pass]

theorem reflect_index (w h k : ℕ) (hw : 0 < w) (hk : k < w * h) :
    w * h - 1 - k = (h - 1 - k / w) * w + (w - 1 - k % w) := by
  have hr : k % w < w := Nat.mod_lt k hw
  have hq : k / w < h := by
    rw [Nat.div_lt_iff_lt_mul hw]
    rw [mul_comm] at hk
    exact hk
  have hdm := Nat.div_add_mod' k w
  generalize hqq : k / w = q at hq hdm ⊢
  generalize hrr : k % w = r at hr hdm ⊢
  have hsum : (h - 1 - q) * w + q * w = (h - 1) * w := by
    rw [← Nat.add_mul]
    congr 1
    omega
  have e2 : (h - 1) * w + w = h * w := by
    rw [← Nat.succ_mul]
    congr 1
    omega
  have e4 : w * h = h * w := Nat.mul_comm w h
  omega

theorem pipeline_getD_eq (f0 : List ℕ) (w h : ℕ) (hf0 : f0.length = w * h)
    (hw : 0 < w) (x y : ℕ) (hx : x < w) (hy : y < h) :
    (twoPassPipeline f0 w h).getD (y * w + x) 0 =
      (chebyshev_sdf_forward_pass (chebyshev_sdf_forward_pass f0 w h).reverse w h).getD
        ((h - 1 - y) * w + (w - 1 - x)) 0 := by
  have hout2len :
      (chebyshev_sdf_forward_pass (chebyshev_sdf_forward_pass f0 w h).reverse w h).length
        = w * h := by
    rw [length_pass, List.length_reverse, length_pass, hf0]
  have hlt : y * w + x < w * h := rowmajor_lt x y w h hx hy
  unfold twoPassPipeline
  rw [getD_reverse _ _ (by rw [hout2len]; exact hlt)]
  congr 1
  rw [hout2len]
  have hrefl := reflect_index w h (y * w + x) hw hlt
  rw [rowmajor_mod x y w hx, rowmajor_div x y w hx] at hrefl
  exact hrefl

theorem pipeline_le_chebDist (f0 : List ℕ) (w h : ℕ) (hf0 : f0.length = w * h)
    (a b x y : ℕ) (ha : a < w) (hb : b < h) (hx : x < w) (hy : y < h)
    (hseed : f0.getD (b * w + a) 0 = 0) :
    (twoPassPipeline f0 w h).getD (y * w + x) 0 ≤ chebDist x y a b := by
  have hw : 0 < w := (Nat.zero_le a).trans_lt ha
  have hh : 0 < h := (Nat.zero_le b).trans_lt hb
  set mid := chebyshev_sdf_forward_pass f0 w h with hmiddef
  have hmidlen : mid.length = w * h := by rw [hmiddef, length_pass, hf0]
  have hrevlen : mid.reverse.length = w * h := by rw [List.length_reverse, hmidlen]
  set out2 := chebyshev_sdf_forward_pass mid.reverse w h with hout2def
  have hout2len : out2.length = w * h := by rw [hout2def, length_pass, hrevlen]
  have hLmid : fwdLocal mid w h := pass_fwdLocal f0 w h hf0
  have hLout2 : fwdLocal out2 w h := pass_fwdLocal mid.reverse w h hrevlen
  have hmid_seed : mid.getD (b * w + a) 0 = 0 := by
    have := pass_le_init f0 w h hf0 (b * w + a) (rowmajor_lt a b w h ha hb)
    rw [hseed] at this
    exact Nat.le_zero.mp this
  have hfin : (twoPassPipeline f0 w h).getD (y * w + x) 0 =
      out2.getD ((h - 1 - y) * w + (w - 1 - x)) 0 :=
    pipeline_getD_eq f0 w h hf0 hw x y hx hy
  have hB : ∀ u v, u < w → v < h →
      out2.getD ((h - 1 - v) * w + (w - 1 - u)) 0 ≤ mid.getD (v * w + u) 0 := by
    intro u v hu hv
    have hk' : (h - 1 - v) * w + (w - 1 - u) < w * h :=
      rowmajor_lt (w - 1 - u) (h - 1 - v) w h (by omega) (by omega)
    have h1 := pass_le_init mid.reverse w h hrevlen _ hk'
    rw [getD_reverse mid _ (by rw [hmidlen]; exact hk')] at h1
    have hrefl := reflect_index w h (v * w + u) hw (rowmajor_lt u v w h hu hv)
    rw [rowmajor_mod u v w hu, rowmajor_div u v w hu] at hrefl
    have hlt2 : v * w + u < w * h := rowmajor_lt u v w h hu hv
    have hidx : mid.length - 1 - ((h - 1 - v) * w + (w - 1 - u)) = v * w + u := by
      rw [hmidlen]
      omega
    rw [hidx] at h1
    exact h1
  by_cases hby : b ≤ y
  · by_cases hax : a ≤ x
    · by_cases hdd : x - a ≤ y - b
      · have h1 := chain_downright mid w h hLmid a b (x - a) (by omega) (by omega)
        rw [show a + (x - a) = x from by omega] at h1
        have h2 := chain_down mid w h hLmid x (b + (x - a)) ((y - b) - (x - a)) hx (by omega)
        rw [show b + (x - a) + ((y - b) - (x - a)) = y from by omega] at h2
        have hM : mid.getD (y * w + x) 0 ≤ y - b := by
          calc mid.getD (y * w + x) 0
              ≤ mid.getD ((b + (x - a)) * w + x) 0 + ((y - b) - (x - a)) := h2
            _ ≤ (mid.getD (b * w + a) 0 + (x - a)) + ((y - b) - (x - a)) :=
                Nat.add_le_add_right h1 _
            _ ≤ y - b := by rw [hmid_seed]; omega
        rw [hfin]
        refine le_trans (hB x y hx hy) (le_trans hM ?_)
        unfold chebDist
        omega
      · have h1 := chain_downright mid w h hLmid a b (y - b) (by omega) (by omega)
        rw [show b + (y - b) = y from by omega] at h1
        have h2 := chain_right mid w h hLmid (a + (y - b)) y ((x - a) - (y - b)) (by omega) hy
        rw [show a + (y - b) + ((x - a) - (y - b)) = x from by omega] at h2
        have hM : mid.getD (y * w + x) 0 ≤ x - a := by
          calc mid.getD (y * w + x) 0
              ≤ mid.getD (y * w + (a + (y - b))) 0 + ((x - a) - (y - b)) := h2
            _ ≤ (mid.getD (b * w + a) 0 + (y - b)) + ((x - a) - (y - b)) :=
                Nat.add_le_add_right h1 _
            _ ≤ x - a := by rw [hmid_seed]; omega
        rw [hfin]
        refine le_trans (hB x y hx hy) (le_trans hM ?_)
        unfold chebDist
        omega
    · by_cases hdd : a - x ≤ y - b
      · have h1 := chain_downleft mid w h hLmid a b (a - x) (by omega) ha (by omega)
        rw [show a - (a - x) = x from by omega] at h1
        have h2 := chain_down mid w h hLmid x (b + (a - x)) ((y - b) - (a - x)) hx (by omega)
        rw [show b + (a - x) + ((y - b) - (a - x)) = y from by omega] at h2
        have hM : mid.getD (y * w + x) 0 ≤ y - b := by
          calc mid.getD (y * w + x) 0
              ≤ mid.getD ((b + (a - x)) * w + x) 0 + ((y - b) - (a - x)) := h2
            _ ≤ (mid.getD (b * w + a) 0 + (a - x)) + ((y - b) - (a - x)) :=
                Nat.add_le_add_right h1 _
            _ ≤ y - b := by rw [hmid_seed]; omega
        rw [hfin]
        refine le_trans (hB x y hx hy) (le_trans hM ?_)
        unfold chebDist
        omega
      · have h1 := chain_downleft mid w h hLmid a b (y - b) (by omega) ha (by omega)
        rw [show b + (y - b) = y from by omega] at h1
        have h2 := chain_right out2 w h hLout2 (w - 1 - (a - (y - b))) (h - 1 - y)
          ((a - (y - b)) - x) (by omega) (by omega)
        rw [show (w - 1 - (a - (y - b))) + ((a - (y - b)) - x) = w - 1 - x from by omega] at h2
        rw [hfin]
        calc out2.getD ((h - 1 - y) * w + (w - 1 - x)) 0
            ≤ out2.getD ((h - 1 - y) * w + (w - 1 - (a - (y - b)))) 0 + ((a - (y - b)) - x) :=
              h2
          _ ≤ mid.getD (y * w + (a - (y - b))) 0 + ((a - (y - b)) - x) :=
              Nat.add_le_add_right (hB (a - (y - b)) y (by omega) hy) _
          _ ≤ (mid.getD (b * w + a) 0 + (y - b)) + ((a - (y - b)) - x) :=
              Nat.add_le_add_right h1 _
          _ ≤ chebDist x y a b := by rw [hmid_seed]; unfold chebDist; omega
  · by_cases hax : a ≤ x
    · by_cases hdd : x - a ≤ b - y
      · have h1 := chain_downleft out2 w h hLout2 (w - 1 - a) (h - 1 - b) (x - a)
          (by omega) (by omega) (by omega)
        rw [show (w - 1 - a) - (x - a) = w - 1 - x from by omega] at h1
        have h2 := chain_down out2 w h hLout2 (w - 1 - x) ((h - 1 - b) + (x - a))
          ((b - y) - (x - a)) (by omega) (by omega)
        rw [show (h - 1 - b) + (x - a) + ((b - y) - (x - a)) = h - 1 - y from by omega] at h2
        rw [hfin]
        calc out2.getD ((h - 1 - y) * w + (w - 1 - x)) 0
            ≤ out2.getD (((h - 1 - b) + (x - a)) * w + (w - 1 - x)) 0 + ((b - y) - (x - a)) :=
              h2
          _ ≤ (out2.getD ((h - 1 - b) * w + (w - 1 - a)) 0 + (x - a)) + ((b - y) - (x - a)) :=
              Nat.add_le_add_right h1 _
          _ ≤ (mid.getD (b * w + a) 0 + (x - a)) + ((b - y) - (x - a)) :=
              Nat.add_le_add_right (Nat.add_le_add_right (hB a b ha hb) _) _
          _ ≤ chebDist x y a b := by rw [hmid_seed]; unfold chebDist; omega
      · have h1 := chain_right mid w h hLmid a b ((x - a) - (b - y)) (by omega) hb
        rw [show a + ((x - a) - (b - y)) = x - (b - y) from by omega] at h1
        have h2 := chain_downleft out2 w h hLout2 (w - 1 - (x - (b - y))) (h - 1 - b)
          (b - y) (by omega) (by omega) (by omega)
        rw [show (w - 1 - (x - (b - y))) - (b - y) = w - 1 - x from by omega,
          show (h - 1 - b) + (b - y) = h - 1 - y from by omega] at h2
        rw [hfin]
        calc out2.getD ((h - 1 - y) * w + (w - 1 - x)) 0
            ≤ out2.getD ((h - 1 - b) * w + (w - 1 - (x - (b - y)))) 0 + (b - y) := h2
          _ ≤ mid.getD (b * w + (x - (b - y))) 0 + (b - y) :=
              Nat.add_le_add_right (hB (x - (b - y)) b (by omega) hb) _
          _ ≤ (mid.getD (b * w + a) 0 + ((x - a) - (b - y))) + (b - y) :=
              Nat.add_le_add_right h1 _
          _ ≤ chebDist x y a b := by rw [hmid_seed]; unfold chebDist; omega
    · by_cases hdd : a - x ≤ b - y
      · have h1 := chain_downright out2 w h hLout2 (w - 1 - a) (h - 1 - b) (a - x)
          (by omega) (by omega)
        rw [show (w - 1 - a) + (a - x) = w - 1 - x from by omega] at h1
        have h2 := chain_down out2 w h hLout2 (w - 1 - x) ((h - 1 - b) + (a - x))
          ((b - y) - (a - x)) (by omega) (by omega)
        rw [show (h - 1 - b) + (a - x) + ((b - y) - (a - x)) = h - 1 - y from by omega] at h2
        rw [hfin]
        calc out2.getD ((h - 1 - y) * w + (w - 1 - x)) 0
            ≤ out2.getD (((h - 1 - b) + (a - x)) * w + (w - 1 - x)) 0 + ((b - y) - (a - x)) :=
              h2
          _ ≤ (out2.getD ((h - 1 - b) * w + (w - 1 - a)) 0 + (a - x)) + ((b - y) - (a - x)) :=
              Nat.add_le_add_right h1 _
          _ ≤ (mid.getD (b * w + a) 0 + (a - x)) + ((b - y) - (a - x)) :=
              Nat.add_le_add_right (Nat.add_le_add_right (hB a b ha hb) _) _
          _ ≤ chebDist x y a b := by rw [hmid_seed]; unfold chebDist; omega
      · have h1 := chain_right out2 w h hLout2 (w - 1 - a) (h - 1 - b)
          ((a - x) - (b - y)) (by omega) (by omega)
        rw [show (w - 1 - a) + ((a - x) - (b - y)) = w - 1 - (x + (b - y)) from by omega] at h1
        have h2 := chain_downright out2 w h hLout2 (w - 1 - (x + (b - y))) (h - 1 - b)
          (b - y) (by omega) (by omega)
        rw [show (w - 1 - (x + (b - y))) + (b - y) = w - 1 - x from by omega,
          show (h - 1 - b) + (b - y) = h - 1 - y from by omega] at h2
        rw [hfin]
        calc out2.getD ((h - 1 - y) * w + (w - 1 - x)) 0
            ≤ out2.getD ((h - 1 - b) * w + (w - 1 - (x + (b - y)))) 0 + (b - y) := h2
          _ ≤ (out2.getD ((h - 1 - b) * w + (w - 1 - a)) 0 + ((a - x) - (b - y))) + (b - y) :=
              Nat.add_le_add_right h1 _
          _ ≤ (mid.getD (b * w + a) 0 + ((a - x) - (b - y))) + (b - y) :=
              Nat.add_le_add_right (Nat.add_le_add_right (hB a b ha hb) _) _
          _ ≤ chebDist x y a b := by rw [hmid_seed]; unfold chebDist; omega

theorem nearest_fwdLipschitz (image : List ℕ) (w h : ℕ) (p : ℕ → Prop)
    [DecidablePred p] (hw : 0 < w) :
    fwdLipschitz w (fun k => nearestSeedDist image w h p (k % w) (k / w)) := by
  intro k
  have hr : k % w < w := Nat.mod_lt k hw
  have hdm := Nat.div_add_mod' k w
  refine ⟨?_, ?_, ?_, ?_⟩
  · intro hx0
    show nearestSeedDist image w h p (k % w) (k / w) ≤
      nearestSeedDist image w h p ((k - 1) % w) ((k - 1) / w) + 1
    obtain ⟨q, hq⟩ : ∃ n, n = k / w := ⟨_, rfl⟩
    obtain ⟨r, hrr⟩ : ∃ n, n = k % w := ⟨_, rfl⟩
    rw [← hq] at hdm ⊢
    rw [← hrr] at hdm hr hx0 ⊢
    clear hq hrr
    have he : k - 1 = q * w + (r - 1) := by omega
    rw [he, rowmajor_mod (r - 1) q w (by omega),
      rowmajor_div (r - 1) q w (by omega)]
    exact nearestSeedDist_lipschitz image w h p _ _ _ _
      (by omega) (by omega) (by omega) (by omega)
  · intro hxw hy0
    show nearestSeedDist image w h p (k % w) (k / w) ≤
      nearestSeedDist image w h p ((k - w + 1) % w) ((k - w + 1) / w) + 1
    obtain ⟨q, hq⟩ : ∃ n, n = k / w := ⟨_, rfl⟩
    obtain ⟨r, hrr⟩ : ∃ n, n = k % w := ⟨_, rfl⟩
    rw [← hq] at hdm hy0 ⊢
    rw [← hrr] at hdm hr hxw ⊢
    clear hq hrr
    have hge : 1 * w ≤ q * w :=
      Nat.mul_le_mul_right w (Nat.one_le_iff_ne_zero.mpr hy0)
    rw [one_mul] at hge
    have hsub : (q - 1) * w = q * w - w := by rw [Nat.sub_mul, one_mul]
    have he : k - w + 1 = (q - 1) * w + (r + 1) := by omega
    rw [he, rowmajor_mod (r + 1) (q - 1) w (by omega),
      rowmajor_div (r + 1) (q - 1) w (by omega)]
    exact nearestSeedDist_lipschitz image w h p _ _ _ _
      (by omega) (by omega) (by omega) (by omega)
  · intro hy0
    show nearestSeedDist image w h p (k % w) (k / w) ≤
      nearestSeedDist image w h p ((k - w) % w) ((k - w) / w) + 1
    obtain ⟨q, hq⟩ : ∃ n, n = k / w := ⟨_, rfl⟩
    obtain ⟨r, hrr⟩ : ∃ n, n = k % w := ⟨_, rfl⟩
    rw [← hq] at hdm hy0 ⊢
    rw [← hrr] at hdm hr ⊢
    clear hq hrr
    have hge : 1 * w ≤ q * w :=
      Nat.mul_le_mul_right w (Nat.one_le_iff_ne_zero.mpr hy0)
    rw [one_mul] at hge
    have hsub : (q - 1) * w = q * w - w := by rw [Nat.sub_mul, one_mul]
    have he : k - w = (q - 1) * w + r := by omega
    rw [he, rowmajor_mod r (q - 1) w (by omega),
      rowmajor_div r (q - 1) w (by omega)]
    exact nearestSeedDist_lipschitz image w h p _ _ _ _
      (by omega) (by omega) (by omega) (by omega)
  · intro hx0 hy0
    show nearestSeedDist image w h p (k % w) (k / w) ≤
      nearestSeedDist image w h p ((k - w - 1) % w) ((k - w - 1) / w) + 1
    obtain ⟨q, hq⟩ : ∃ n, n = k / w := ⟨_, rfl⟩
    obtain ⟨r, hrr⟩ : ∃ n, n = k % w := ⟨_, rfl⟩
    rw [← hq] at hdm hy0 ⊢
    rw [← hrr] at hdm hr hx0 ⊢
    clear hq hrr
    have hge : 1 * w ≤ q * w :=
      Nat.mul_le_mul_right w (Nat.one_le_iff_ne_zero.mpr hy0)
    rw [one_mul] at hge
    have hsub : (q - 1) * w = q * w - w := by rw [Nat.sub_mul, one_mul]
    have he : k - w - 1 = (q - 1) * w + (r - 1) := by omega
    rw [he, rowmajor_mod (r - 1) (q - 1) w (by omega),
      rowmajor_div (r - 1) (q - 1) w (by omega)]
    exact nearestSeedDist_lipschitz image w h p _ _ _ _
      (by omega) (by omega) (by omega) (by omega)

theorem nearest_rev_fwdLipschitz (image : List ℕ) (w h : ℕ) (p : ℕ → Prop)
    [DecidablePred p] (hw : 0 < w) :
    fwdLipschitz w
      (fun k => nearestSeedDist image w h p (w - 1 - k % w) (h - 1 - k / w)) := by
  intro k
  have hr : k % w < w := Nat.mod_lt k hw
  have hdm := Nat.div_add_mod' k w
  refine ⟨?_, ?_, ?_, ?_⟩
  · intro hx0
    show nearestSeedDist image w h p (w - 1 - k % w) (h - 1 - k / w) ≤
      nearestSeedDist image w h p (w - 1 - (k - 1) % w) (h - 1 - (k - 1) / w) + 1
    obtain ⟨q, hq⟩ : ∃ n, n = k / w := ⟨_, rfl⟩
    obtain ⟨r, hrr⟩ : ∃ n, n = k % w := ⟨_, rfl⟩
    rw [← hq] at hdm ⊢
    rw [← hrr] at hdm hr hx0 ⊢
    clear hq hrr
    have he : k - 1 = q * w + (r - 1) := by omega
    rw [he, rowmajor_mod (r - 1) q w (by omega),
      rowmajor_div (r - 1) q w (by omega)]
    exact nearestSeedDist_lipschitz image w h p _ _ _ _
      (by omega) (by omega) (by omega) (by omega)
  · intro hxw hy0
    show nearestSeedDist image w h p (w - 1 - k % w) (h - 1 - k / w) ≤
      nearestSeedDist image w h p (w - 1 - (k - w + 1) % w) (h - 1 - (k - w + 1) / w) + 1
    obtain ⟨q, hq⟩ : ∃ n, n = k / w := ⟨_, rfl⟩
    obtain ⟨r, hrr⟩ : ∃ n, n = k % w := ⟨_, rfl⟩
    rw [← hq] at hdm hy0 ⊢
    rw [← hrr] at hdm hr hxw ⊢
    clear hq hrr
    have hge : 1 * w ≤ q * w :=
      Nat.mul_le_mul_right w (Nat.one_le_iff_ne_zero.mpr hy0)
    rw [one_mul] at hge
    have hsub : (q - 1) * w = q * w - w := by rw [Nat.sub_mul, one_mul]
    have he : k - w + 1 = (q - 1) * w + (r + 1) := by omega
    rw [he, rowmajor_mod (r + 1) (q - 1) w (by omega),
      rowmajor_div (r + 1) (q - 1) w (by omega)]
    exact nearestSeedDist_lipschitz image w h p _ _ _ _
      (by omega) (by omega) (by omega) (by omega)
  · intro hy0
    show nearestSeedDist image w h p (w - 1 - k % w) (h - 1 - k / w) ≤
      nearestSeedDist image w h p (w - 1 - (k - w) % w) (h - 1 - (k - w) / w) + 1
    obtain ⟨q, hq⟩ : ∃ n, n = k / w := ⟨_, rfl⟩
    obtain ⟨r, hrr⟩ : ∃ n, n = k % w := ⟨_, rfl⟩
    rw [← hq] at hdm hy0 ⊢
    rw [← hrr] at hdm hr ⊢
    clear hq hrr
    have hge : 1 * w ≤ q * w :=
      Nat.mul_le_mul_right w (Nat.one_le_iff_ne_zero.mpr hy0)
    rw [one_mul] at hge
    have hsub : (q - 1) * w = q * w - w := by rw [Nat.sub_mul, one_mul]
    have he : k - w = (q - 1) * w + r := by omega
    rw [he, rowmajor_mod r (q - 1) w (by omega),
      rowmajor_div r (q - 1) w (by omega)]
    exact nearestSeedDist_lipschitz image w h p _ _ _ _
      (by omega) (by omega) (by omega) (by omega)
  · intro hx0 hy0
    show nearestSeedDist image w h p (w - 1 - k % w) (h - 1 - k / w) ≤
      nearestSeedDist image w h p (w - 1 - (k - w - 1) % w) (h - 1 - (k - w - 1) / w) + 1
    obtain ⟨q, hq⟩ : ∃ n, n = k / w := ⟨_, rfl⟩
    obtain ⟨r, hrr⟩ : ∃ n, n = k % w := ⟨_, rfl⟩
    rw [← hq] at hdm hy0 ⊢
    rw [← hrr] at hdm hr hx0 ⊢
    clear hq hrr
    have hge : 1 * w ≤ q * w :=
      Nat.mul_le_mul_right w (Nat.one_le_iff_ne_zero.mpr hy0)
    rw [one_mul] at hge
    have hsub : (q - 1) * w = q * w - w := by rw [Nat.sub_mul, one_mul]
    have he : k - w - 1 = (q - 1) * w + (r - 1) := by omega
    rw [he, rowmajor_mod (r - 1) (q - 1) w (by omega),
      rowmajor_div (r - 1) (q - 1) w (by omega)]
    exact nearestSeedDist_lipschitz image w h p _ _ _ _
      (by omega) (by omega) (by omega) (by omega)

theorem pipeline_ge_nearest (image : List ℕ) (w h : ℕ) (p : ℕ → Prop)
    [DecidablePred p] (hw : 0 < w) (hh : 0 < h) (x y : ℕ) (hx : x < w) (hy : y < h) :
    nearestSeedDist image w h p x y ≤
      (twoPassPipeline (seedInit image w h p) w h).getD (y * w + x) 0 := by
  have hf0 : (seedInit image w h p).length = w * h := length_seedInit image w h p
  have hmidlen : (chebyshev_sdf_forward_pass (seedInit image w h p) w h).length = w * h := by
    rw [length_pass, hf0]
  have hrevlen :
      (chebyshev_sdf_forward_pass (seedInit image w h p) w h).reverse.length = w * h := by
    rw [List.length_reverse, hmidlen]
  have hout2len :
      (chebyshev_sdf_forward_pass
        (chebyshev_sdf_forward_pass (seedInit image w h p) w h).reverse w h).length
        = w * h := by
    rw [length_pass, hrevlen]
  have hmc : w * h = h * w := mul_comm w h
  have hinit : ∀ k, k < w * h →
      nearestSeedDist image w h p (k % w) (k / w) ≤ (seedInit image w h p).getD k 0 := by
    intro k hk
    rw [seedInit_getD image w h p k hk]
    by_cases hs : k < image.length ∧ p (image.getD k 0)
    · rw [if_pos hs]
      have hq : k / w < h := (Nat.div_lt_iff_lt_mul hw).mpr (by omega)
      have hseedk : isSeed image p (k / w * w + k % w) := by
        rw [Nat.div_add_mod']
        exact ⟨hs.1, hs.2⟩
      exact le_of_eq (nearestSeedDist_eq_zero_of_seed image w h p (k % w) (k / w)
        (Nat.mod_lt k hw) hq hseedk)
    · rw [if_neg hs]
      exact nearestSeedDist_le_sum image w h p _ _
  have hmid_lb : ∀ k, k < w * h →
      nearestSeedDist image w h p (k % w) (k / w) ≤
        (chebyshev_sdf_forward_pass (seedInit image w h p) w h).getD k 0 :=
    pass_lower_bound (seedInit image w h p) w h hf0 _
      (nearest_fwdLipschitz image w h p hw) hinit
  have hinit2 : ∀ k, k < w * h →
      nearestSeedDist image w h p (w - 1 - k % w) (h - 1 - k / w) ≤
        (chebyshev_sdf_forward_pass (seedInit image w h p) w h).reverse.getD k 0 := by
    intro k hk
    rw [getD_reverse _ k (by rw [hmidlen]; exact hk), hmidlen, reflect_index w h k hw hk]
    obtain ⟨q, hq'⟩ : ∃ n, n = k / w := ⟨_, rfl⟩
    obtain ⟨r, hr'⟩ : ∃ n, n = k % w := ⟨_, rfl⟩
    have hqlt : q < h := by
      rw [hq']
      exact (Nat.div_lt_iff_lt_mul hw).mpr (by omega)
    have hrlt : r < w := by
      rw [hr']
      exact Nat.mod_lt k hw
    rw [← hq', ← hr']
    clear hq' hr'
    have hj : (h - 1 - q) * w + (w - 1 - r) < w * h :=
      rowmajor_lt _ _ w h (by omega) (by omega)
    have hres := hmid_lb _ hj
    rw [rowmajor_mod (w - 1 - r) (h - 1 - q) w (by omega),
      rowmajor_div (w - 1 - r) (h - 1 - q) w (by omega)] at hres
    exact hres
  have hout2_lb : ∀ k, k < w * h →
      nearestSeedDist image w h p (w - 1 - k % w) (h - 1 - k / w) ≤
        (chebyshev_sdf_forward_pass
          (chebyshev_sdf_forward_pass (seedInit image w h p) w h).reverse w h).getD k 0 :=
    pass_lower_bound _ w h hrevlen _
      (nearest_rev_fwdLipschitz image w h p hw) hinit2
  have hk0 : y * w + x < w * h := rowmajor_lt x y w h hx hy
  unfold twoPassPipeline
  rw [getD_reverse _ _ (by rw [hout2len]; exact hk0), hout2len,
    reflect_index w h (y * w + x) hw hk0, rowmajor_mod x y w hx, rowmajor_div x y w hx]
  have hj : (h - 1 - y) * w + (w - 1 - x) < w * h :=
    rowmajor_lt _ _ w h (by omega) (by omega)
  have hfin := hout2_lb _ hj
  rw [rowmajor_mod (w - 1 - x) (h - 1 - y) w (by omega),
    rowmajor_div (w - 1 - x) (h - 1 - y) w (by omega)] at hfin
  rw [show w - 1 - (w - 1 - x) = x from by omega,
    show h - 1 - (h - 1 - y) = y from by omega] at hfin
  exact hfin

theorem pipeline_eq_nearest (image : List ℕ) (w h : ℕ) (p : ℕ → Prop)
    [DecidablePred p] (hw : 0 < w) (hh : 0 < h)
    (hseed : ∃ j, j < w * h ∧ isSeed image p j)
    (x y : ℕ) (hx : x < w) (hy : y < h) :
    (twoPassPipeline (seedInit image w h p) w h).getD (y * w + x) 0 =
      nearestSeedDist image w h p x y := by
  have hmc : w * h = h * w := mul_comm w h
  refine Nat.le_antisymm ?_ (pipeline_ge_nearest image w h p hw hh x y hx hy)
  rcases nearestSeedDist_cases image w h p x y with hbase | ⟨j, hj, hs, heq⟩
  · obtain ⟨j, hj, hs⟩ := hseed
    have hql : j / w < h := (Nat.div_lt_iff_lt_mul hw).mpr (by omega)
    have hle := nearestSeedDist_le_cheb image w h p x y j hj hs
    have hlt := chebDist_lt_sum x y (j % w) (j / w) w h hx hy (Nat.mod_lt j hw) hql
    omega
  · rw [heq]
    have hql : j / w < h := (Nat.div_lt_iff_lt_mul hw).mpr (by omega)
    refine pipeline_le_chebDist (seedInit image w h p) w h (length_seedInit image w h p)
      (j % w) (j / w) x y (Nat.mod_lt j hw) hql hx hy ?_
    rw [Nat.div_add_mod', seedInit_getD image w h p j hj, if_pos ⟨hs.1, hs.2⟩]

/-- C1: For every frame of positive area and for each seed rule
(seed = pixels with value > 127 for the `above` field, seed = pixels with
value ≤ 127 for the `below` field), provided at least one seed pixel
exists, the two-pass procedure (forward raster pass, reverse the buffer,
identical forward pass, reverse back) assigns every pixel exactly its
Chebyshev (king-move) distance to the nearest seed pixel, and every
computed value is at most `width + height`. -/
theorem C1_two_pass_chebyshev_exact (image : List ℕ) (w h : ℕ)
    (hw : 0 < w) (hh : 0 < h) (hlen : image.length = w * h)
    (x y : ℕ) (hx : x < w) (hy : y < h) :
    ((∃ j, j < w * h ∧ isSeed image (fun v => 127 < v) j) →
      (chebyshev_sdf_above image w h 127).getD (y * w + x) 0 =
          nearestSeedDist image w h (fun v => 127 < v) x y ∧
        (chebyshev_sdf_above image w h 127).getD (y * w + x) 0 ≤ w + h) ∧
    ((∃ j, j < w * h ∧ isSeed image (fun v => v ≤ 127) j) →
      (chebyshev_sdf_below image w h 127).getD (y * w + x) 0 =
          nearestSeedDist image w h (fun v => v ≤ 127) x y ∧
        (chebyshev_sdf_below image w h 127).getD (y * w + x) 0 ≤ w + h) := by
  constructor
  · intro hseed
    rw [chebyshev_sdf_above_eq_pipeline]
    have heq := pipeline_eq_nearest image w h (fun v => 127 < v) hw hh hseed x y hx hy
    refine ⟨heq, ?_⟩
    rw [heq]
    exact nearestSeedDist_le_sum image w h _ x y
  · intro hseed
    rw [chebyshev_sdf_below_eq_pipeline]
    have heq := pipeline_eq_nearest image w h (fun v => v ≤ 127) hw hh hseed x y hx hy
    refine ⟨heq, ?_⟩
    rw [heq]
    exact nearestSeedDist_le_sum image w h _ x y

/-- Witness for C1 at the 2×2 frame `[0, 255, 0, 255]`, pixel `(0, 0)`,
`above` seed rule. -/
theorem C1_two_pass_chebyshev_exact_witness :
    (chebyshev_sdf_above [0, 255, 0, 255] 2 2 127).getD (0 * 2 + 0) 0 =
        nearestSeedDist [0, 255, 0, 255] 2 2 (fun v => 127 < v) 0 0 ∧
      (chebyshev_sdf_above [0, 255, 0, 255] 2 2 127).getD (0 * 2 + 0) 0 ≤ 2 + 2 :=
  (C1_two_pass_chebyshev_exact [0, 255, 0, 255] 2 2 (by decide) (by decide) (by decide)
    0 0 (by decide) (by decide)).1 ⟨1, by decide, ⟨by decide, by decide⟩⟩

/-- `MonoFrame` (`monoframe.rs` lines 13–18): a single-channel pixel buffer
with `u16` dimensions (modelled as `ℕ`; the `u16` range enters through
explicit `% 65536` where the source truncates). -/
structure MonoFrame where
  data : List ℕ
  width : ℕ
  height : ℕ
deriving DecidableEq

/-- `MonoFrame::solid_color` (`monoframe.rs` lines 35–46): a
`width*height` buffer uniformly filled with `color`. -/
def MonoFrame.solid_color (width height color : ℕ) : MonoFrame :=
  ⟨List.replicate (width * height) color, width, height⟩

/-- Model of `dst[dstStart..dstStart+len].copy_from_slice(&src[srcStart..srcStart+len])`:
`none` models the Rust panic when either slice range is out of bounds
(when both ranges are valid the two slice lengths are equal, so the
`copy_from_slice` length-mismatch panic cannot occur). -/
def sliceCopy (dst : List ℕ) (dstStart : ℕ) (src : List ℕ) (srcStart len : ℕ) :
    Option (List ℕ) :=
  if srcStart + len ≤ src.length ∧ dstStart + len ≤ dst.length then
    some ((List.range dst.length).map fun j =>
      if dstStart ≤ j ∧ j < dstStart + len then src.getD (srcStart + (j - dstStart)) 0
      else dst.getD j 0)
  else none

/-- The row-copy loop of `MonoFrame::add_border` (`monoframe.rs` lines
60–69), after `rows` iterations (`y = 0, …, rows-1`): row `y` of the source
(width `sw`) is copied into the destination (row stride `nw`, untruncated)
at offset `(y + bw) * nw + bw`. -/
def copyRows (src : List ℕ) (sw bw nw : ℕ) : ℕ → List ℕ → Option (List ℕ)
  | 0, acc => some acc
  | rows + 1, acc =>
    match copyRows src sw bw nw rows acc with
    | none => none
    | some acc' => sliceCopy acc' ((rows + bw) * nw + bw) src (rows * sw) sw

/-- `MonoFrame::add_border` (`monoframe.rs` lines 48–71): allocate a solid
buffer whose dimensions are the bordered dimensions truncated to `u16`
(`new_width as u16` / `new_height as u16`, modelled by `% 65536`), then copy
each source row into the interior using the untruncated `new_width` for the
offsets, exactly as the source does.  `none` models the slice-index panic
that occurs when the truncated allocation is smaller than the offsets
assume. -/
def MonoFrame.add_border (f : MonoFrame) (border_width border_color : ℕ) :
    Option MonoFrame :=
  let new_width := f.width + 2 * border_width
  let new_height := f.height + 2 * border_width
  let with_border := MonoFrame.solid_color (new_width % 65536) (new_height % 65536)
    border_color
  match copyRows f.data f.width border_width new_width f.height with_border.data with
  | none => none
  | some d => some ⟨d, with_border.width, with_border.height⟩

theorem getD_map_range (g : ℕ → ℕ) (n j : ℕ) (hj : j < n) :
    ((List.range n).map g).getD j 0 = g j := by
  rw [List.getD_eq_getElem?_getD, List.getElem?_map, List.getElem?_range hj]
  rfl

theorem sliceCopy_some (dst : List ℕ) (dstStart : ℕ) (src : List ℕ) (srcStart len : ℕ)
    (hsrc : srcStart + len ≤ src.length) (hdst : dstStart + len ≤ dst.length) :
    ∃ d, sliceCopy dst dstStart src srcStart len = some d ∧
      d.length = dst.length ∧
      ∀ j, j < dst.length →
        d.getD j 0 = if dstStart ≤ j ∧ j < dstStart + len then
            src.getD (srcStart + (j - dstStart)) 0
          else dst.getD j 0 := by
  refine ⟨_, by rw [sliceCopy, if_pos ⟨hsrc, hdst⟩], by simp, ?_⟩
  intro j hj
  exact getD_map_range _ dst.length j hj

theorem sliceCopy_none (dst : List ℕ) (dstStart : ℕ) (src : List ℕ) (srcStart len : ℕ)
    (hbad : ¬(srcStart + len ≤ src.length ∧ dstStart + len ≤ dst.length)) :
    sliceCopy dst dstStart src srcStart len = none := by
  rw [sliceCopy, if_neg hbad]

theorem window_iff (nw bw sw rows jr jc : ℕ) (hjc : jc < nw) (hbs : bw + sw ≤ nw) :
    ((rows + bw) * nw + bw ≤ jr * nw + jc ∧
        jr * nw + jc < (rows + bw) * nw + bw + sw) ↔
      (jr = rows + bw ∧ bw ≤ jc ∧ jc < bw + sw) := by
  constructor
  · rintro ⟨h1, h2⟩
    rcases lt_trichotomy jr (rows + bw) with hlt | heq | hgt
    · exfalso
      have hmul : (jr + 1) * nw ≤ (rows + bw) * nw := Nat.mul_le_mul_right nw (by omega)
      rw [Nat.succ_mul] at hmul
      omega
    · subst heq
      omega
    · exfalso
      have hmul : (rows + bw + 1) * nw ≤ jr * nw := Nat.mul_le_mul_right nw (by omega)
      rw [Nat.succ_mul] at hmul
      omega
  · rintro ⟨rfl, h1, h2⟩
    omega

theorem copyRows_spec (src : List ℕ) (sw bw nw nh : ℕ) (hbs : bw + sw ≤ nw) :
    ∀ (rows : ℕ) (acc : List ℕ), acc.length = nw * nh → bw + rows ≤ nh →
      rows * sw ≤ src.length →
      ∃ d, copyRows src sw bw nw rows acc = some d ∧ d.length = nw * nh ∧
        ∀ jr jc, jr < nh → jc < nw →
          d.getD (jr * nw + jc) 0 =
            if bw ≤ jr ∧ jr < bw + rows ∧ bw ≤ jc ∧ jc < bw + sw then
              src.getD ((jr - bw) * sw + (jc - bw)) 0
            else acc.getD (jr * nw + jc) 0 := by
  intro rows
  induction rows with
  | zero =>
    intro acc hacc _ _
    refine ⟨acc, rfl, hacc, ?_⟩
    intro jr jc _ _
    rw [if_neg (by omega)]
  | succ rows ih =>
    intro acc hacc hrows hsrc
    obtain ⟨d, hd, hdlen, hdpt⟩ := ih acc hacc (by omega) (by
      calc rows * sw ≤ (rows + 1) * sw := Nat.mul_le_mul_right sw (by omega)
        _ ≤ src.length := hsrc)
    have hsrcrow : rows * sw + sw ≤ src.length := by
      rw [← Nat.succ_mul]
      exact hsrc
    have hdstrow : (rows + bw) * nw + bw + sw ≤ nw * nh := by
      have h1 : (rows + bw) * nw + nw ≤ nh * nw :=
        (Nat.succ_mul (rows + bw) nw) ▸ Nat.mul_le_mul_right nw (by omega)
      have h2 : nh * nw = nw * nh := Nat.mul_comm nh nw
      omega
    obtain ⟨e, he, helen, hept⟩ := sliceCopy_some d ((rows + bw) * nw + bw) src
      (rows * sw) sw hsrcrow (by omega)
    refine ⟨e, ?_, by omega, ?_⟩
    · show copyRows src sw bw nw (rows + 1) acc = some e
      rw [copyRows, hd]
      exact he
    · intro jr jc hjr hjc
      have hlt : jr * nw + jc < nw * nh := by
        have h1 : jr * nw + nw ≤ nh * nw :=
          (Nat.succ_mul jr nw) ▸ Nat.mul_le_mul_right nw (by omega)
        have h2 : nh * nw = nw * nh := Nat.mul_comm nh nw
        omega
      have hev := hept (jr * nw + jc) (by omega)
      rw [hdpt jr jc hjr hjc] at hev
      rw [hev]
      have hiff := window_iff nw bw sw rows jr jc hjc hbs
      split_ifs with h1 h2 h2 h3 h3
      · obtain ⟨heq, hb1, hb2⟩ := hiff.mp h1
        subst heq
        congr 1
        rw [show rows + bw - bw = rows from by omega]
        omega
      · exfalso
        obtain ⟨heq, hb1, hb2⟩ := hiff.mp h1
        exact h2 (by omega)
      · rfl
      · exfalso
        exact h3 (by omega)
      · exfalso
        have hjr : jr = rows + bw := by
          by_contra hne
          exact h2 ⟨h3.1, by omega, h3.2.2.1, h3.2.2.2⟩
        exact h1 (hiff.mpr ⟨hjr, h3.2.2.1, h3.2.2.2⟩)
      · rfl

theorem add_border_spec (f : MonoFrame) (bw c : ℕ)
    (hinv : f.data.length = f.width * f.height)
    (hW : f.width + 2 * bw ≤ 65535) (hH : f.height + 2 * bw ≤ 65535) :
    ∃ g, f.add_border bw c = some g ∧
      g.width = f.width + 2 * bw ∧ g.height = f.height + 2 * bw ∧
      g.data.length = (f.width + 2 * bw) * (f.height + 2 * bw) ∧
      (∀ x y, x < f.width → y < f.height →
        g.data.getD ((y + bw) * (f.width + 2 * bw) + (x + bw)) 0 =
          f.data.getD (y * f.width + x) 0) ∧
      (∀ rx ry, rx < f.width + 2 * bw → ry < f.height + 2 * bw →
        (rx < bw ∨ f.width + bw ≤ rx ∨ ry < bw ∨ f.height + bw ≤ ry) →
        g.data.getD (ry * (f.width + 2 * bw) + rx) 0 = c) := by
  have hmodw : (f.width + 2 * bw) % 65536 = f.width + 2 * bw :=
    Nat.mod_eq_of_lt (by omega)
  have hmodh : (f.height + 2 * bw) % 65536 = f.height + 2 * bw :=
    Nat.mod_eq_of_lt (by omega)
  have hcomm : f.width * f.height = f.height * f.width := Nat.mul_comm _ _
  obtain ⟨d, hd, hdlen, hdpt⟩ := copyRows_spec f.data f.width bw
    (f.width + 2 * bw) (f.height + 2 * bw) (by omega) f.height
    (MonoFrame.solid_color ((f.width + 2 * bw) % 65536) ((f.height + 2 * bw) % 65536)
      c).data
    (by simp [MonoFrame.solid_color, hmodw, hmodh]) (by omega) (by omega)
  refine ⟨⟨d, (f.width + 2 * bw) % 65536, (f.height + 2 * bw) % 65536⟩, ?_, ?_, ?_, ?_, ?_, ?_⟩
  · show (match copyRows f.data f.width bw (f.width + 2 * bw) f.height
        (MonoFrame.solid_color ((f.width + 2 * bw) % 65536)
          ((f.height + 2 * bw) % 65536) c).data with
      | none => none
      | some d => some (⟨d, (f.width + 2 * bw) % 65536,
          (f.height + 2 * bw) % 65536⟩ : MonoFrame)) =
      some ⟨d, (f.width + 2 * bw) % 65536, (f.height + 2 * bw) % 65536⟩
    rw [hd]
  · exact hmodw
  · exact hmodh
  · exact hdlen
  · intro x y hx hy
    have := hdpt (y + bw) (x + bw) (by omega) (by omega)
    rw [if_pos (by omega)] at this
    rw [this, show y + bw - bw = y from by omega, show x + bw - bw = x from by omega]
  · intro rx ry hrx hry hout
    have := hdpt ry rx (by omega) (by omega)
    rw [if_neg (by omega)] at this
    rw [this]
    show (MonoFrame.solid_color ((f.width + 2 * bw) % 65536)
      ((f.height + 2 * bw) % 65536) c).data.getD (ry * (f.width + 2 * bw) + rx) 0 = c
    unfold MonoFrame.solid_color
    rw [List.getD_eq_getElem?_getD, List.getElem?_replicate]
    rw [if_pos (by rw [hmodw, hmodh]; exact rowmajor_lt rx ry _ _ hrx hry)]
    rfl

/-- C9 counterexample: `add_border` on a 1×1 frame with border width 32768
(a valid `u16`) panics — the bordered width 65537 is truncated to 1 for the
allocation, but the untruncated width is used for the row-copy offsets,
which land far outside the 1-byte buffer. -/
theorem C9_add_border_counterexample :
    MonoFrame.add_border ⟨[5], 1, 1⟩ 32768 7 = none := by decide

/-- C9 (amended): for every frame (with its `data.length = width*height`
invariant), border width `b`, and fill value `c` such that both bordered
dimensions fit in `u16` (`width + 2b ≤ 65535` and `height + 2b ≤ 65535`),
`add_border` succeeds and yields a frame of area `(w+2b)*(h+2b)` in which
the original pixel at `(x, y)` appears at `(x+b, y+b)` and every pixel
outside that interior rectangle equals `c`.  Without the dimension bound
the function panics (see the counterexample), so the unconditional claim is
false. -/
theorem C9_add_border_correct (f : MonoFrame) (b c : ℕ)
    (hinv : f.data.length = f.width * f.height)
    (hW : f.width + 2 * b ≤ 65535) (hH : f.height + 2 * b ≤ 65535) :
    ∃ g, f.add_border b c = some g ∧
      g.data.length = (f.width + 2 * b) * (f.height + 2 * b) ∧
      (∀ x y, x < f.width → y < f.height →
        g.data.getD ((y + b) * (f.width + 2 * b) + (x + b)) 0 =
          f.data.getD (y * f.width + x) 0) ∧
      (∀ rx ry, rx < f.width + 2 * b → ry < f.height + 2 * b →
        (rx < b ∨ f.width + b ≤ rx ∨ ry < b ∨ f.height + b ≤ ry) →
        g.data.getD (ry * (f.width + 2 * b) + rx) 0 = c) := by
  obtain ⟨g, hg, _, _, hlen, hint, hbor⟩ := add_border_spec f b c hinv hW hH
  exact ⟨g, hg, hlen, hint, hbor⟩

/-- Witness for C9 (amended) at the 1×1 frame `[5]` with border width 1 and
fill 7. -/
theorem C9_add_border_correct_witness :
    ∃ g, MonoFrame.add_border ⟨[5], 1, 1⟩ 1 7 = some g ∧
      g.data.length = (1 + 2 * 1) * (1 + 2 * 1) ∧
      (∀ x y, x < 1 → y < 1 →
        g.data.getD ((y + 1) * (1 + 2 * 1) + (x + 1)) 0 =
          [5].getD (y * 1 + x) 0) ∧
      (∀ rx ry, rx < 1 + 2 * 1 → ry < 1 + 2 * 1 →
        (rx < 1 ∨ 1 + 1 ≤ rx ∨ ry < 1 ∨ 1 + 1 ≤ ry) →
        g.data.getD (ry * (1 + 2 * 1) + rx) 0 = 7) :=
  C9_add_border_correct ⟨[5], 1, 1⟩ 1 7 (by decide) (by decide) (by decide)

/-- C10: when `width + 2*border_width ≤ 65535` and
`height + 2*border_width ≤ 65535`, `add_border` performs no out-of-bounds
slice access (it cannot panic: the model returns `some`), and the returned
frame satisfies `data.length = width * height` for its own recorded
dimensions. -/
theorem C10_add_border_no_oob (f : MonoFrame) (border_width border_color : ℕ)
    (hinv : f.data.length = f.width * f.height)
    (hW : f.width + 2 * border_width ≤ 65535)
    (hH : f.height + 2 * border_width ≤ 65535) :
    ∃ g, f.add_border border_width border_color = some g ∧
      g.data.length = g.width * g.height := by
  obtain ⟨g, hg, hgw, hgh, hlen, _, _⟩ :=
    add_border_spec f border_width border_color hinv hW hH
  refine ⟨g, hg, ?_⟩
  rw [hlen, hgw, hgh]

/-- Witness for C10 at the 2×1 frame `[3, 4]` with border width 2. -/
theorem C10_add_border_no_oob_witness :
    ∃ g, MonoFrame.add_border ⟨[3, 4], 2, 1⟩ 2 0 = some g ∧
      g.data.length = g.width * g.height :=
  C10_add_border_no_oob ⟨[3, 4], 2, 1⟩ 2 0 (by decide) (by decide) (by decide)

/-- `index_to_spiral_coords` (`functions.rs` lines 398–438).  The source
computes the layer as `(((n as f64).sqrt() - 1.0) / 2.0).floor() + 1`; for
a natural argument with exact real square root this equals
`(⌊√n⌋ + 1) / 2` (in ℕ division), which is how the `f64` square root is
modelled here. -/
def index_to_spiral_coords (n : ℕ) : ℤ × ℤ :=
  if n = 0 then (0, 0)
  else
    let layer : ℤ := ((Nat.sqrt n + 1) / 2 : ℕ)
    let layer_start := (2 * layer - 1) ^ 2
    let pos_in_layer := (n : ℤ) - layer_start
    let side_length := 2 * layer
    if pos_in_layer < side_length then (layer, -layer + 1 + pos_in_layer)
    else if pos_in_layer < 2 * side_length then
      (layer - 1 - (pos_in_layer - side_length), layer)
    else if pos_in_layer < 3 * side_length then
      (-layer, layer - 1 - (pos_in_layer - 2 * side_length))
    else (-layer + 1 + (pos_in_layer - 3 * side_length), -layer)

/-- The ring (layer) on which a lattice point of the square spiral lies:
its Chebyshev norm `max |x| |z|`, kept in ℤ. -/
def spiralLayer (xz : ℤ × ℤ) : ℤ :=
  max (max xz.1 (-xz.1)) (max xz.2 (-xz.2))

/-- Specification-side inverse of `index_to_spiral_coords`: recover the
spiral index of a lattice point from its ring and its leg along the ring
(right edge going up, top edge going left, left edge going down, bottom
edge going right). -/
def spiralIndex (xz : ℤ × ℤ) : ℤ :=
  if xz.1 = 0 ∧ xz.2 = 0 then 0
  else if xz.1 = spiralLayer xz ∧ xz.2 ≠ -spiralLayer xz then
    (2 * spiralLayer xz - 1) ^ 2 + (xz.2 + spiralLayer xz - 1)
  else if xz.2 = spiralLayer xz then
    (2 * spiralLayer xz - 1) ^ 2 + 2 * spiralLayer xz + (spiralLayer xz - 1 - xz.1)
  else if xz.1 = -spiralLayer xz then
    (2 * spiralLayer xz - 1) ^ 2 + 4 * spiralLayer xz + (spiralLayer xz - 1 - xz.2)
  else
    (2 * spiralLayer xz - 1) ^ 2 + 6 * spiralLayer xz + (xz.1 + spiralLayer xz - 1)

theorem spiralIndex_leg0 (l z : ℤ) (hl : 1 ≤ l) (hz1 : -l + 1 ≤ z) (hz2 : z ≤ l) :
    spiralIndex (l, z) = (2 * l - 1) ^ 2 + (z + l - 1) := by
  have hlay : spiralLayer (l, z) = l := by
    show max (max l (-l)) (max z (-z)) = l
    rw [max_eq_left (by omega : -l ≤ l)]
    exact max_eq_left (max_le hz2 (by omega))
  unfold spiralIndex
  rw [hlay]
  rw [if_neg (show ¬((l, z).1 = 0 ∧ (l, z).2 = 0) by show ¬(l = 0 ∧ z = 0); omega)]
  rw [if_pos (show (l, z).1 = l ∧ (l, z).2 ≠ -l by show l = l ∧ z ≠ -l; omega)]

theorem spiralIndex_leg1 (l x : ℤ) (hl : 1 ≤ l) (hx1 : -l ≤ x) (hx2 : x ≤ l - 1) :
    spiralIndex (x, l) = (2 * l - 1) ^ 2 + 2 * l + (l - 1 - x) := by
  have hlay : spiralLayer (x, l) = l := by
    show max (max x (-x)) (max l (-l)) = l
    rw [max_eq_left (by omega : -l ≤ l)]
    exact max_eq_right (max_le (by omega) (by omega))
  unfold spiralIndex
  rw [hlay]
  rw [if_neg (show ¬((x, l).1 = 0 ∧ (x, l).2 = 0) by show ¬(x = 0 ∧ l = 0); omega)]
  rw [if_neg (show ¬((x, l).1 = l ∧ (x, l).2 ≠ -l) by
    show ¬(x = l ∧ l ≠ -l); omega)]
  rw [if_pos (show (x, l).2 = l from rfl)]

theorem spiralIndex_leg2 (l z : ℤ) (hl : 1 ≤ l) (hz1 : -l ≤ z) (hz2 : z ≤ l - 1) :
    spiralIndex (-l, z) = (2 * l - 1) ^ 2 + 4 * l + (l - 1 - z) := by
  have hlay : spiralLayer (-l, z) = l := by
    show max (max (-l) (- -l)) (max z (-z)) = l
    rw [show - -l = l from by ring, max_eq_right (by omega : -l ≤ l)]
    exact max_eq_left (max_le (by omega) (by omega))
  unfold spiralIndex
  rw [hlay]
  rw [if_neg (show ¬((-l, z).1 = 0 ∧ (-l, z).2 = 0) by show ¬(-l = 0 ∧ z = 0); omega)]
  rw [if_neg (show ¬((-l, z).1 = l ∧ (-l, z).2 ≠ -l) by
    show ¬(-l = l ∧ z ≠ -l); omega)]
  rw [if_neg (show ¬((-l, z).2 = l) by show ¬(z = l); omega)]
  rw [if_pos (show (-l, z).1 = -l from rfl)]

theorem spiralIndex_leg3 (l x : ℤ) (hl : 1 ≤ l) (hx1 : -l + 1 ≤ x) (hx2 : x ≤ l) :
    spiralIndex (x, -l) = (2 * l - 1) ^ 2 + 6 * l + (x + l - 1) := by
  have hlay : spiralLayer (x, -l) = l := by
    show max (max x (-x)) (max (-l) (- -l)) = l
    rw [show - -l = l from by ring, max_eq_right (by omega : -l ≤ l)]
    exact max_eq_right (max_le (by omega) (by omega))
  unfold spiralIndex
  rw [hlay]
  rw [if_neg (show ¬((x, -l).1 = 0 ∧ (x, -l).2 = 0) by show ¬(x = 0 ∧ -l = 0); omega)]
  rw [if_neg (show ¬((x, -l).1 = l ∧ (x, -l).2 ≠ -l) by
    show ¬(x = l ∧ -l ≠ -l); omega)]
  rw [if_neg (show ¬((x, -l).2 = l) by show ¬(-l = l); omega)]
  rw [if_neg (show ¬((x, -l).1 = -l) by show ¬(x = -l); omega)]

theorem spiralIndex_ring (l pos : ℤ) (hl : 1 ≤ l) (h0 : 0 ≤ pos) (h8 : pos < 8 * l) :
    spiralIndex (if pos < 2 * l then (l, -l + 1 + pos)
      else if pos < 2 * (2 * l) then (l - 1 - (pos - 2 * l), l)
      else if pos < 3 * (2 * l) then (-l, l - 1 - (pos - 2 * (2 * l)))
      else (-l + 1 + (pos - 3 * (2 * l)), -l)) = (2 * l - 1) ^ 2 + pos := by
  split_ifs with h1 h2 h3
  · rw [spiralIndex_leg0 l (-l + 1 + pos) hl (by omega) (by omega)]
    ring
  · rw [spiralIndex_leg1 l (l - 1 - (pos - 2 * l)) hl (by omega) (by omega)]
    ring
  · rw [spiralIndex_leg2 l (l - 1 - (pos - 2 * (2 * l))) hl (by omega) (by omega)]
    ring
  · rw [spiralIndex_leg3 l (-l + 1 + (pos - 3 * (2 * l))) hl (by omega) (by omega)]
    ring

theorem spiralIndex_leftInv (n : ℕ) :
    spiralIndex (index_to_spiral_coords n) = (n : ℤ) := by
  rcases Nat.eq_zero_or_pos n with rfl | hn
  · rfl
  · have hs1 : Nat.sqrt n ^ 2 ≤ n := Nat.sqrt_le' n
    have hs2 : n < (Nat.sqrt n + 1) ^ 2 := Nat.lt_succ_sqrt' n
    have hspos : 1 ≤ Nat.sqrt n := Nat.sqrt_pos.mpr hn
    have hl1 : 1 ≤ (Nat.sqrt n + 1) / 2 := by omega
    have hcase : Nat.sqrt n = 2 * ((Nat.sqrt n + 1) / 2) - 1 ∨
        Nat.sqrt n = 2 * ((Nat.sqrt n + 1) / 2) := by omega
    have hlow : (2 * ((Nat.sqrt n + 1) / 2) - 1) ^ 2 ≤ n := by
      rcases hcase with hc | hc
      · rw [← hc]
        exact hs1
      · refine le_trans (Nat.pow_le_pow_left
          (show 2 * ((Nat.sqrt n + 1) / 2) - 1 ≤ 2 * ((Nat.sqrt n + 1) / 2) from by omega)
          2) ?_
        rw [← hc]
        exact hs1
    have hhigh : n < (2 * ((Nat.sqrt n + 1) / 2) + 1) ^ 2 := by
      rcases hcase with hc | hc
      · exact lt_of_lt_of_le hs2 (Nat.pow_le_pow_left
          (show Nat.sqrt n + 1 ≤ 2 * ((Nat.sqrt n + 1) / 2) + 1 from by omega) 2)
      · exact lt_of_lt_of_le hs2 (Nat.pow_le_pow_left
          (show Nat.sqrt n + 1 ≤ 2 * ((Nat.sqrt n + 1) / 2) + 1 from by omega) 2)
    have hcast : (((2 * ((Nat.sqrt n + 1) / 2) - 1 : ℕ)) : ℤ) =
        2 * (((Nat.sqrt n + 1) / 2 : ℕ) : ℤ) - 1 := by omega
    have hlowZ : (2 * (((Nat.sqrt n + 1) / 2 : ℕ) : ℤ) - 1) ^ 2 ≤ (n : ℤ) := by
      calc (2 * (((Nat.sqrt n + 1) / 2 : ℕ) : ℤ) - 1) ^ 2
          = (((2 * ((Nat.sqrt n + 1) / 2) - 1 : ℕ)) : ℤ) ^ 2 := by rw [hcast]
        _ = (((2 * ((Nat.sqrt n + 1) / 2) - 1 : ℕ) ^ 2 : ℕ) : ℤ) := by
            rw [Nat.cast_pow]
        _ ≤ (n : ℤ) := Nat.cast_le.mpr hlow
    have hhighZ : (n : ℤ) < (2 * (((Nat.sqrt n + 1) / 2 : ℕ) : ℤ) + 1) ^ 2 := by
      calc (n : ℤ) < (((2 * ((Nat.sqrt n + 1) / 2) + 1 : ℕ) ^ 2 : ℕ) : ℤ) :=
            Nat.cast_lt.mpr hhigh
        _ = (((2 * ((Nat.sqrt n + 1) / 2) + 1 : ℕ)) : ℤ) ^ 2 := by rw [Nat.cast_pow]
        _ = (2 * (((Nat.sqrt n + 1) / 2 : ℕ) : ℤ) + 1) ^ 2 := by push_cast; ring
    have hsq8 : (2 * (((Nat.sqrt n + 1) / 2 : ℕ) : ℤ) + 1) ^ 2 =
        (2 * (((Nat.sqrt n + 1) / 2 : ℕ) : ℤ) - 1) ^ 2 +
          8 * (((Nat.sqrt n + 1) / 2 : ℕ) : ℤ) := by ring
    have hbody : index_to_spiral_coords n =
        (if (n : ℤ) - (2 * (((Nat.sqrt n + 1) / 2 : ℕ) : ℤ) - 1) ^ 2 <
            2 * (((Nat.sqrt n + 1) / 2 : ℕ) : ℤ) then
          ((((Nat.sqrt n + 1) / 2 : ℕ) : ℤ),
            -(((Nat.sqrt n + 1) / 2 : ℕ) : ℤ) + 1 +
              ((n : ℤ) - (2 * (((Nat.sqrt n + 1) / 2 : ℕ) : ℤ) - 1) ^ 2))
        else if (n : ℤ) - (2 * (((Nat.sqrt n + 1) / 2 : ℕ) : ℤ) - 1) ^ 2 <
            2 * (2 * (((Nat.sqrt n + 1) / 2 : ℕ) : ℤ)) then
          ((((Nat.sqrt n + 1) / 2 : ℕ) : ℤ) - 1 -
              ((n : ℤ) - (2 * (((Nat.sqrt n + 1) / 2 : ℕ) : ℤ) - 1) ^ 2 -
                2 * (((Nat.sqrt n + 1) / 2 : ℕ) : ℤ)),
            (((Nat.sqrt n + 1) / 2 : ℕ) : ℤ))
        else if (n : ℤ) - (2 * (((Nat.sqrt n + 1) / 2 : ℕ) : ℤ) - 1) ^ 2 <
            3 * (2 * (((Nat.sqrt n + 1) / 2 : ℕ) : ℤ)) then
          (-(((Nat.sqrt n + 1) / 2 : ℕ) : ℤ),
            (((Nat.sqrt n + 1) / 2 : ℕ) : ℤ) - 1 -
              ((n : ℤ) - (2 * (((Nat.sqrt n + 1) / 2 : ℕ) : ℤ) - 1) ^ 2 -
                2 * (2 * (((Nat.sqrt n + 1) / 2 : ℕ) : ℤ))))
        else
          (-(((Nat.sqrt n + 1) / 2 : ℕ) : ℤ) + 1 +
              ((n : ℤ) - (2 * (((Nat.sqrt n + 1) / 2 : ℕ) : ℤ) - 1) ^ 2 -
                3 * (2 * (((Nat.sqrt n + 1) / 2 : ℕ) : ℤ))),
            -(((Nat.sqrt n + 1) / 2 : ℕ) : ℤ))) := by
      unfold index_to_spiral_coords
      rw [if_neg (by omega : ¬n = 0)]
    rw [hbody]
    calc spiralIndex _
        = (2 * (((Nat.sqrt n + 1) / 2 : ℕ) : ℤ) - 1) ^ 2 +
            ((n : ℤ) - (2 * (((Nat.sqrt n + 1) / 2 : ℕ) : ℤ) - 1) ^ 2) :=
          spiralIndex_ring (((Nat.sqrt n + 1) / 2 : ℕ) : ℤ)
            ((n : ℤ) - (2 * (((Nat.sqrt n + 1) / 2 : ℕ) : ℤ) - 1) ^ 2)
            (by exact_mod_cast hl1) (by omega) (by omega)
      _ = (n : ℤ) := by ring

/-- C8: `index_to_spiral_coords 0 = (0, 0)`, and `index_to_spiral_coords`
is injective on all of ℕ (hence on `0..N` for every `N`): no two distinct
indices map to the same `(x, z)` pair. -/
theorem C8_spiral_injective :
    index_to_spiral_coords 0 = (0, 0) ∧
      ∀ m n : ℕ, index_to_spiral_coords m = index_to_spiral_coords n → m = n := by
  refine ⟨rfl, ?_⟩
  intro m n he
  have h1 := spiralIndex_leftInv m
  have h2 := spiralIndex_leftInv n
  rw [he] at h1
  exact_mod_cast h1.symm.trans h2

theorem pipeline_le_getD_init (f0 : List ℕ) (w h : ℕ) (hf0 : f0.length = w * h)
    (hw : 0 < w) (x y : ℕ) (hx : x < w) (hy : y < h) :
    (twoPassPipeline f0 w h).getD (y * w + x) 0 ≤ f0.getD (y * w + x) 0 := by
  have hmidlen : (chebyshev_sdf_forward_pass f0 w h).length = w * h := by
    rw [length_pass, hf0]
  have hrevlen : (chebyshev_sdf_forward_pass f0 w h).reverse.length = w * h := by
    rw [List.length_reverse, hmidlen]
  rw [pipeline_getD_eq f0 w h hf0 hw x y hx hy]
  have hK : (h - 1 - y) * w + (w - 1 - x) < w * h :=
    rowmajor_lt _ _ w h (by omega) (by omega)
  have h1 := pass_le_init (chebyshev_sdf_forward_pass f0 w h).reverse w h hrevlen _ hK
  rw [getD_reverse _ _ (by rw [hmidlen]; exact hK)] at h1
  have hlt : y * w + x < w * h := rowmajor_lt x y w h hx hy
  have hrefl := reflect_index w h (y * w + x) hw hlt
  rw [rowmajor_mod x y w hx, rowmajor_div x y w hx] at hrefl
  have hidx : (chebyshev_sdf_forward_pass f0 w h).length - 1 -
      ((h - 1 - y) * w + (w - 1 - x)) = y * w + x := by
    rw [hmidlen]
    omega
  rw [hidx] at h1
  exact le_trans h1 (pass_le_init f0 w h hf0 _ hlt)

theorem pipeline_ge_const (f0 : List ℕ) (w h : ℕ) (hf0 : f0.length = w * h)
    (hw : 0 < w) (c : ℕ) (hc : ∀ k, k < w * h → c ≤ f0.getD k 0)
    (x y : ℕ) (hx : x < w) (hy : y < h) :
    c ≤ (twoPassPipeline f0 w h).getD (y * w + x) 0 := by
  have hmidlen : (chebyshev_sdf_forward_pass f0 w h).length = w * h := by
    rw [length_pass, hf0]
  have hrevlen : (chebyshev_sdf_forward_pass f0 w h).reverse.length = w * h := by
    rw [List.length_reverse, hmidlen]
  have hout2len :
      (chebyshev_sdf_forward_pass (chebyshev_sdf_forward_pass f0 w h).reverse w h).length
        = w * h := by
    rw [length_pass, hrevlen]
  have hLip : fwdLipschitz w (fun _ => c) := fun _ =>
    ⟨fun _ => Nat.le_succ c, fun _ _ => Nat.le_succ c, fun _ => Nat.le_succ c,
      fun _ _ => Nat.le_succ c⟩
  have h1 := pass_lower_bound f0 w h hf0 _ hLip hc
  have h2 : ∀ k, k < w * h →
      c ≤ (chebyshev_sdf_forward_pass f0 w h).reverse.getD k 0 := by
    intro k hk
    rw [getD_reverse _ _ (by rw [hmidlen]; exact hk), hmidlen]
    exact h1 _ (by omega)
  have h3 := pass_lower_bound _ w h hrevlen _ hLip h2
  have hk0 : y * w + x < w * h := rowmajor_lt x y w h hx hy
  unfold twoPassPipeline
  rw [getD_reverse _ _ (by rw [hout2len]; exact hk0), hout2len]
  exact h3 _ (by omega)

theorem length_chebyshev_sdf_above (image : List ℕ) (w h t : ℕ) :
    (chebyshev_sdf_above image w h t).length = w * h := by
  rw [chebyshev_sdf_above_eq_pipeline, length_twoPassPipeline, length_seedInit]

theorem length_chebyshev_sdf_below (image : List ℕ) (w h t : ℕ) :
    (chebyshev_sdf_below image w h t).length = w * h := by
  rw [chebyshev_sdf_below_eq_pipeline, length_twoPassPipeline, length_seedInit]

theorem getD_map (f : ℕ → ℕ) (l : List ℕ) (i : ℕ) (hi : i < l.length) :
    (l.map f).getD i 0 = f (l.getD i 0) := by
  rw [List.getD_eq_getElem?_getD, List.getElem?_map, List.getElem?_eq_getElem hi,
    List.getD_eq_getElem?_getD, List.getElem?_eq_getElem hi]
  rfl

theorem getD_map_zip (f : ℕ × ℕ → ℕ) :
    ∀ (a b : List ℕ) (i : ℕ), i < a.length → i < b.length →
      ((a.zip b).map f).getD i 0 = f (a.getD i 0, b.getD i 0) := by
  intro a
  induction a with
  | nil =>
    intro b i hi _
    exact absurd hi (by simp)
  | cons x xs ih =>
    intro b i hi hib
    match b, i with
    | y :: ys, 0 => rfl
    | y :: ys, i + 1 =>
      exact ih ys i (by simpa using hi) (by simpa using hib)

theorem getD_mem_of_lt (l : List ℕ) (n : ℕ) (hn : n < l.length) : l.getD n 0 ∈ l := by
  rw [List.getD_eq_getElem?_getD, List.getElem?_eq_getElem hn]
  exact List.getElem_mem hn

theorem foldl_max_all_eq (c : ℕ) : ∀ (xs : List ℕ), (∀ x ∈ xs, x = c) →
    xs.foldl max c = c := by
  intro xs
  induction xs with
  | nil => intro _; rfl
  | cons x xs ih =>
    intro hx
    rw [List.foldl_cons, hx x (List.mem_cons_self x xs), max_self]
    exact ih fun z hz => hx z (List.mem_cons_of_mem x hz)

theorem max?_of_all_eq (l : List ℕ) (c : ℕ) (hne : 0 < l.length)
    (hc : ∀ x ∈ l, x = c) : l.max? = some c := by
  match l, hne with
  | x :: xs, _ =>
    show some (xs.foldl max x) = some c
    rw [hc x (List.mem_cons_self x xs)]
    exact congrArg some (foldl_max_all_eq c xs fun z hz => hc z (List.mem_cons_of_mem x hz))

theorem max?_is_some_of_pos (l : List ℕ) (hl : 0 < l.length) : ∃ m, l.max? = some m := by
  match l, hl with
  | x :: xs, _ => exact ⟨xs.foldl max x, rfl⟩

theorem eq_of_all_getD (l : List ℕ) (c : ℕ)
    (h : ∀ i, i < l.length → l.getD i 0 = c) : ∀ x ∈ l, x = c := by
  intro x hx
  rcases List.mem_iff_getElem.mp hx with ⟨i, hi, rfl⟩
  have := h i hi
  rwa [List.getD_eq_getElem?_getD, List.getElem?_eq_getElem hi] at this

theorem binary_sdf_eval (image : List ℕ) (w h am bm : ℕ)
    (hAm : (chebyshev_sdf_above image w h 127).max? = some am)
    (hBm : (chebyshev_sdf_below image w h 127).max? = some bm) :
    binary_sdf image w h = Except.ok
      ((((chebyshev_sdf_below image w h 127).map fun d => belowByte d bm).zip
        ((chebyshev_sdf_above image w h 127).map fun d => aboveByte d am)).map
        fun bp => if bp.1 = 128 then bp.2 else bp.1) := by
  show (match (chebyshev_sdf_above image w h 127).max?,
      (chebyshev_sdf_below image w h 127).max? with
    | some above_max, some below_max =>
      Except.ok (List.map (fun bp : ℕ × ℕ => if bp.1 = 128 then bp.2 else bp.1)
        ((List.map (fun d => belowByte d below_max)
            (chebyshev_sdf_below image w h 127)).zip
          (List.map (fun d => aboveByte d above_max)
            (chebyshev_sdf_above image w h 127))))
    | _, _ => Except.error "SDF should never have size 0") = _
  rw [hAm, hBm]

theorem binary_sdf_spec (image : List ℕ) (w h am bm : ℕ)
    (hAm : (chebyshev_sdf_above image w h 127).max? = some am)
    (hBm : (chebyshev_sdf_below image w h 127).max? = some bm) :
    ∃ out, binary_sdf image w h = Except.ok out ∧ out.length = w * h ∧
      ∀ i, i < w * h →
        out.getD i 0 =
          if belowByte ((chebyshev_sdf_below image w h 127).getD i 0) bm = 128 then
            aboveByte ((chebyshev_sdf_above image w h 127).getD i 0) am
          else belowByte ((chebyshev_sdf_below image w h 127).getD i 0) bm := by
  refine ⟨_, binary_sdf_eval image w h am bm hAm hBm, ?_, ?_⟩
  · rw [List.length_map, List.length_zip, List.length_map, List.length_map,
      length_chebyshev_sdf_above, length_chebyshev_sdf_below, min_self]
  · intro i hi
    rw [getD_map_zip _ _ _ i
      (by rw [List.length_map, length_chebyshev_sdf_below]; exact hi)
      (by rw [List.length_map, length_chebyshev_sdf_above]; exact hi)]
    rw [getD_map _ _ i (by rw [length_chebyshev_sdf_below]; exact hi),
      getD_map _ _ i (by rw [length_chebyshev_sdf_above]; exact hi)]

theorem belowByte_zero_max (d : ℕ) : belowByte d 0 = 128 := by
  unfold belowByte
  norm_num

theorem aboveByte_max_self (m : ℕ) (hm : m ≠ 0) : aboveByte m m = 0 := by
  unfold aboveByte
  rw [if_neg hm, div_self (Nat.cast_ne_zero.mpr hm : (m : ℚ) ≠ 0)]
  norm_num

/-- C2: for every frame of positive area and every pixel index `i`, the
output byte of the dual-sided signed transform equals the below-derived
byte unless that byte equals exactly 128, in which case it equals the
above-derived byte; no other combination policy is applied at any pixel. -/
theorem C2_combine_policy (image : List ℕ) (w h : ℕ)
    (hpos : 0 < w * h) (hlen : image.length = w * h) :
    ∃ out, binary_sdf image w h = Except.ok out ∧ out.length = w * h ∧
      ∀ i, i < w * h →
        out.getD i 0 =
          if belowByte ((chebyshev_sdf_below image w h 127).getD i 0)
              ((chebyshev_sdf_below image w h 127).max?.getD 0) = 128 then
            aboveByte ((chebyshev_sdf_above image w h 127).getD i 0)
              ((chebyshev_sdf_above image w h 127).max?.getD 0)
          else
            belowByte ((chebyshev_sdf_below image w h 127).getD i 0)
              ((chebyshev_sdf_below image w h 127).max?.getD 0) := by
  obtain ⟨am, hAm⟩ := max?_is_some_of_pos (chebyshev_sdf_above image w h 127)
    (by rw [length_chebyshev_sdf_above]; exact hpos)
  obtain ⟨bm, hBm⟩ := max?_is_some_of_pos (chebyshev_sdf_below image w h 127)
    (by rw [length_chebyshev_sdf_below]; exact hpos)
  obtain ⟨out, hok, holen, hpt⟩ := binary_sdf_spec image w h am bm hAm hBm
  refine ⟨out, hok, holen, ?_⟩
  intro i hi
  rw [hAm, hBm, Option.getD_some, Option.getD_some]
  exact hpt i hi

/-- Witness for C2 at the 2×2 frame `[0, 255, 0, 255]`. -/
theorem C2_combine_policy_witness :
    ∃ out, binary_sdf [0, 255, 0, 255] 2 2 = Except.ok out ∧ out.length = 2 * 2 ∧
      ∀ i, i < 2 * 2 →
        out.getD i 0 =
          if belowByte ((chebyshev_sdf_below [0, 255, 0, 255] 2 2 127).getD i 0)
              ((chebyshev_sdf_below [0, 255, 0, 255] 2 2 127).max?.getD 0) = 128 then
            aboveByte ((chebyshev_sdf_above [0, 255, 0, 255] 2 2 127).getD i 0)
              ((chebyshev_sdf_above [0, 255, 0, 255] 2 2 127).max?.getD 0)
          else
            belowByte ((chebyshev_sdf_below [0, 255, 0, 255] 2 2 127).getD i 0)
              ((chebyshev_sdf_below [0, 255, 0, 255] 2 2 127).max?.getD 0) :=
  C2_combine_policy [0, 255, 0, 255] 2 2 (by decide) (by decide)

/-- C3 counterexample: the fully-below 1×1 frame `[0]` yields output byte
`0`, not `255`: `below_max = 0` makes the below byte exactly 128 (the
`0.0/0.0 = NaN` path casts to 0), which defers to the above field, which
has no seeds and normalises to 0. -/
theorem C3_counterexample :
    binary_sdf [0] 1 1 = Except.ok [0] ∧ (0 : ℕ) ≠ 255 := by
  constructor
  · have hev := binary_sdf_eval [0] 1 1 2 0 (by decide) (by decide)
    rw [hev, show chebyshev_sdf_above [0] 1 1 127 = [2] from by decide,
      show chebyshev_sdf_below [0] 1 1 127 = [0] from by decide]
    rw [show List.map (fun d => belowByte d 0) [0] = [128] from by
        rw [List.map_cons, List.map_nil, belowByte_zero_max],
      show List.map (fun d => aboveByte d 2) [0+2] = [0] from by
        rw [List.map_cons, List.map_nil, aboveByte_max_self 2 (by decide)]]
    rfl
  · decide

/-- C3 (amended): for every frame of positive area in which every pixel
value is ≤ 127, `binary_sdf` returns a frame whose every output byte is
`0` (not `255` as claimed): every below distance is 0, so `below_max = 0`
and every below byte is exactly 128, deferring every pixel to the above
field, which has no seeds, stays at the sentinel `w + h` everywhere, and
normalises to byte 0. -/
theorem C3_fully_below_uniform_zero (image : List ℕ) (w h : ℕ)
    (hw : 0 < w) (hh : 0 < h) (hlen : image.length = w * h)
    (hall : ∀ v ∈ image, v ≤ 127) :
    ∃ out, binary_sdf image w h = Except.ok out ∧ out.length = w * h ∧
      ∀ i, i < w * h → out.getD i 0 = 0 := by
  have hmc : w * h = h * w := mul_comm w h
  have hbelow : ∀ i, i < w * h → (chebyshev_sdf_below image w h 127).getD i 0 = 0 := by
    intro i hi
    have hx : i % w < w := Nat.mod_lt i hw
    have hy : i / w < h := (Nat.div_lt_iff_lt_mul hw).mpr (by omega)
    have hseedi : isSeed image (fun v => v ≤ 127) i :=
      ⟨by omega, hall _ (getD_mem_of_lt image i (by omega))⟩
    have heq := pipeline_eq_nearest image w h (fun v => v ≤ 127) hw hh
      ⟨i, hi, hseedi⟩ (i % w) (i / w) hx hy
    rw [Nat.div_add_mod'] at heq
    rw [chebyshev_sdf_below_eq_pipeline, heq]
    refine nearestSeedDist_eq_zero_of_seed image w h _ (i % w) (i / w) hx hy ?_
    rw [Nat.div_add_mod']
    exact hseedi
  have habove : ∀ i, i < w * h →
      (chebyshev_sdf_above image w h 127).getD i 0 = w + h := by
    intro i hi
    have hx : i % w < w := Nat.mod_lt i hw
    have hy : i / w < h := (Nat.div_lt_iff_lt_mul hw).mpr (by omega)
    have hnoseed : ∀ k, k < w * h →
        (seedInit image w h fun v => 127 < v).getD k 0 = w + h := by
      intro k hk
      rw [seedInit_getD image w h _ k hk, if_neg]
      rintro ⟨hklen, hgt⟩
      exact absurd (hall _ (getD_mem_of_lt image k hklen)) (by omega)
    rw [chebyshev_sdf_above_eq_pipeline]
    have hle := pipeline_le_getD_init (seedInit image w h fun v => 127 < v) w h
      (length_seedInit image w h _) hw (i % w) (i / w) hx hy
    have hge := pipeline_ge_const (seedInit image w h fun v => 127 < v) w h
      (length_seedInit image w h _) hw (w + h)
      (fun k hk => le_of_eq (hnoseed k hk).symm) (i % w) (i / w) hx hy
    rw [Nat.div_add_mod'] at hle hge
    have hinit := hnoseed i hi
    omega
  have hAm' : (chebyshev_sdf_above image w h 127).max? = some (w + h) := by
    refine max?_of_all_eq _ _
      (by rw [length_chebyshev_sdf_above]; exact Nat.mul_pos hw hh) ?_
    exact eq_of_all_getD _ _ fun i hi =>
      habove i (by rwa [length_chebyshev_sdf_above] at hi)
  have hBm' : (chebyshev_sdf_below image w h 127).max? = some 0 := by
    refine max?_of_all_eq _ _
      (by rw [length_chebyshev_sdf_below]; exact Nat.mul_pos hw hh) ?_
    exact eq_of_all_getD _ _ fun i hi =>
      hbelow i (by rwa [length_chebyshev_sdf_below] at hi)
  obtain ⟨out, hok, holen, hpt⟩ := binary_sdf_spec image w h (w + h) 0 hAm' hBm'
  refine ⟨out, hok, holen, ?_⟩
  intro i hi
  rw [hpt i hi, hbelow i hi, habove i hi, belowByte_zero_max, if_pos rfl,
    aboveByte_max_self (w + h) (by omega)]

/-- Witness for C3 (amended) at the 1×2 all-zero frame. -/
theorem C3_fully_below_uniform_zero_witness :
    ∃ out, binary_sdf [0, 0] 1 2 = Except.ok out ∧ out.length = 1 * 2 ∧
      ∀ i, i < 1 * 2 → out.getD i 0 = 0 :=
  C3_fully_below_uniform_zero [0, 0] 1 2 (by decide) (by decide) (by decide)
    (by decide)

/-- C4 counterexample: on the zero-area frame the transform does not return
a recoverable error value — it panics: `binary_sdf` reaches
`.max().expect("SDF should never have size 0")` on the empty field
(`Except.error` here models exactly that panic; the Rust function's return
type `MonoFrame` has no error channel at all). -/
theorem C4_counterexample :
    binary_sdf [] 0 0 = Except.error "SDF should never have size 0" := by rfl

/-- C4 (amended): for every zero-area frame (`width * height = 0`), the
dual-sided transform panics via `.expect("SDF should never have size 0")`
on the empty maximum; the panic happens before any normalisation, so no
division by zero or undefined maximum is performed, but no error value is
returned either (the function has no error channel). -/
theorem C4_zero_area_panics (image : List ℕ) (w h : ℕ) (hzero : w * h = 0) :
    binary_sdf image w h = Except.error "SDF should never have size 0" := by
  have hA : chebyshev_sdf_above image w h 127 = [] :=
    List.length_eq_zero.mp (by rw [length_chebyshev_sdf_above, hzero])
  have hB : chebyshev_sdf_below image w h 127 = [] :=
    List.length_eq_zero.mp (by rw [length_chebyshev_sdf_below, hzero])
  unfold binary_sdf
  rw [hA, hB]
  rfl

/-- Witness for C4 (amended) at a frame with nonempty data but zero area. -/
theorem C4_zero_area_panics_witness :
    binary_sdf [9, 9] 0 5 = Except.error "SDF should never have size 0" :=
  C4_zero_area_panics [9, 9] 0 5 rfl

/-! ### functions.rs: batch orchestration

Embeddings of the index-range resolution in `write_project_n_from_config`
(functions.rs:88-97), of the parallel frame writer `write_json_frames_parallel`
(functions.rs:263-308), and of the `grid_cell_args` array built by
`write_json_grid` (functions.rs:348-373).  Filesystem effects (directory
creation, JSON serialisation, file writes) are abstracted away: the per-frame
work `process_single_frame` becomes an oracle `ℕ → MonoFrame → Except String Unit`,
and the nondeterministic completion order of the rayon workers becomes an
explicit list `order` of (index, frame) pairs, constrained to be a permutation
of the traversed pairs in the theorems. -/

/-- Resolution of `index_start` in `write_project_n_from_config` (functions.rs:88-92):
`None => 0, Some(frame_start) => (frame_start.get() - 1) as usize`.
`frame_start : Option<NonZeroU32>`, so a `some` payload is at least 1. -/
def resolve_index_start (frame_start : Option ℕ) : ℕ :=
  match frame_start with
  | none => 0
  | some s => s - 1

/-- Resolution of `index_end` in `write_project_n_from_config` (functions.rs:93-97):
`None => frames.len(), Some(frame_start) => (frame_start.get() - 1) as usize`.
The `Some` binder is named `frame_start` in the source even though the match
scrutinee is `project_config.frame_end`. -/
def resolve_index_end (frame_end : Option ℕ) (num_frames : ℕ) : ℕ :=
  match frame_end with
  | none => num_frames
  | some e => e - 1

/-- The ordered (index, frame) pairs traversed by `write_json_frames_parallel`
(functions.rs:278-281):
`(index_range.0..index_range.1).into_par_iter().zip(frames.par_iter().skip(index_range.0))`.
A Rust `zip` stops at the shorter side, so the pair list is silently truncated
when `frames.len() < index_range.1`. -/
def parallel_pairs (frames : List MonoFrame) (index_range : ℕ × ℕ) : List (ℕ × MonoFrame) :=
  (List.range' index_range.1 (index_range.2 - index_range.1)).zip
    (frames.drop index_range.1)

/-- The match in the worker closure (functions.rs:282-298): `Ok(()) => {}` records
nothing, `Err(e)` pushes `e` onto the mutex-guarded error list. -/
def error_of (r : Except String Unit) : Option String :=
  match r with
  | Except.ok _ => none
  | Except.error e => some e

/-- The contents of the mutex-guarded `errors` vector after all workers finish,
when results are observed in completion order `order`. -/
def collected_errors (process_single_frame : ℕ → MonoFrame → Except String Unit)
    (order : List (ℕ × MonoFrame)) : List String :=
  order.filterMap (fun p => error_of (process_single_frame p.1 p.2))

/-- Overall result of `write_json_frames_parallel` (functions.rs:300-307): `Ok(())`
if the collected error list is empty, otherwise `Err` of its first element
(`errors.into_iter().next().unwrap()`), discarding the rest. -/
def write_json_frames_parallel (process_single_frame : ℕ → MonoFrame → Except String Unit)
    (order : List (ℕ × MonoFrame)) : Except String Unit :=
  match collected_errors process_single_frame order with
  | [] => Except.ok ()
  | e :: _ => Except.error e

/-- The `grid_cell_args` array of `write_json_grid` (functions.rs:363-365):
`((index_range.0+1)..index_range.1).map(|i| format!("{}{}", namespace, i))`. -/
def grid_cell_args (index_range : ℕ × ℕ) (ns : String) : List String :=
  (List.range' (index_range.1 + 1) (index_range.2 - (index_range.1 + 1))).map
    (fun i => ns ++ toString i)

theorem map_fst_zip_take {α β : Type} :
    ∀ (l : List α) (l' : List β), (l.zip l').map Prod.fst = l.take l'.length := by
  intro l
  induction l with
  | nil => intro l'; simp
  | cons a as ih =>
    intro l'
    cases l' with
    | nil => rfl
    | cons b bs =>
      rw [List.zip_cons_cons, List.map_cons, ih bs]
      rfl

theorem take_range' : ∀ (m n a : ℕ), (List.range' a n).take m = List.range' a (min m n) := by
  intro m
  induction m with
  | zero =>
    intro n a
    rw [Nat.zero_min]
    rfl
  | succ m ih =>
    intro n a
    cases n with
    | zero =>
      rw [Nat.min_zero]
      rfl
    | succ n =>
      rw [show List.range' a (n + 1) = a :: List.range' (a + 1) n from rfl,
        List.take_succ_cons, ih n (a + 1), Nat.succ_min_succ,
        show List.range' a (min m n + 1) = a :: List.range' (a + 1) (min m n) from rfl]

theorem getD_map_range_gen {β : Type} (g : ℕ → β) (d : β) (a n j : ℕ) (hj : j < n) :
    ((List.range' a n).map g).getD j d = g (a + j) := by
  rw [List.getD_eq_getElem?_getD, List.getElem?_map, List.getElem?_range' a 1 hj]
  simp

theorem filterMap_eq_cons_split {α β : Type} (f : α → Option β) :
    ∀ (l : List α) (b : β) (L : List β), l.filterMap f = b :: L →
      ∃ pre p post, l = pre ++ p :: post ∧ (∀ q ∈ pre, f q = none) ∧ f p = some b := by
  intro l
  induction l with
  | nil =>
    intro b L h
    exact List.noConfusion h
  | cons a as ih =>
    intro b L h
    cases hfa : f a with
    | some b' =>
      simp only [List.filterMap_cons, hfa] at h
      obtain ⟨hb, hL⟩ := List.cons.inj h
      refine ⟨[], a, as, rfl, ?_, ?_⟩
      · intro q hq
        exact absurd hq (List.not_mem_nil q)
      · rw [hfa, hb]
    | none =>
      simp only [List.filterMap_cons, hfa] at h
      obtain ⟨pre, p, post, heq, hpre, hp⟩ := ih b L h
      refine ⟨a :: pre, p, post, by rw [heq]; rfl, ?_, hp⟩
      intro q hq
      rcases List.mem_cons.mp hq with h1 | h2
      · rw [h1, hfa]
      · exact hpre q h2

theorem write_json_frames_parallel_spec
    (process_single_frame : ℕ → MonoFrame → Except String Unit)
    (order : List (ℕ × MonoFrame)) :
    (collected_errors process_single_frame order = [] ∧
        write_json_frames_parallel process_single_frame order = Except.ok ()) ∨
      ∃ e L, collected_errors process_single_frame order = e :: L ∧
        write_json_frames_parallel process_single_frame order = Except.error e := by
  rcases h : collected_errors process_single_frame order with _ | ⟨e, L⟩
  · left
    refine ⟨rfl, ?_⟩
    unfold write_json_frames_parallel
    rw [h]
  · right
    refine ⟨e, L, rfl, ?_⟩
    unfold write_json_frames_parallel
    rw [h]

/-- C5 (counterexample to the claim as stated): the parallel writer does NOT attempt
every index of the resolved half-open range.  With one frame and the range [0, 2),
index 1 lies in the range but is never attempted, because the source zips the index
range with `frames.par_iter().skip(index_range.0)` and the zip silently truncates
to the shorter side. -/
theorem C5_counterexample :
    (0 : ℕ) ≤ 1 ∧ (1 : ℕ) < 2 ∧
      1 ∉ (parallel_pairs [MonoFrame.mk [0] 1 1] (0, 2)).map Prod.fst := by
  decide

/-- C5 (amended): the indices the parallel writer attempts are exactly
`index_range.0, ..., index_range.0 + min (frames.length - index_range.0)
(index_range.1 - index_range.0) - 1` (the claimed range truncated by the frame
count); for any completion order of the workers, the call returns `Ok(())` exactly
when every attempted per-frame unit succeeded, and when it returns an error, that
error is the first failure in completion order (all earlier completions succeeded)
and all other failures are discarded. -/
theorem C5_parallel_writer (frames : List MonoFrame) (r : ℕ × ℕ)
    (process_single_frame : ℕ → MonoFrame → Except String Unit)
    (order : List (ℕ × MonoFrame)) (horder : order.Perm (parallel_pairs frames r)) :
    (parallel_pairs frames r).map Prod.fst
        = List.range' r.1 (min (frames.length - r.1) (r.2 - r.1)) ∧
      (write_json_frames_parallel process_single_frame order = Except.ok () ↔
        ∀ p ∈ parallel_pairs frames r, process_single_frame p.1 p.2 = Except.ok ()) ∧
      ∀ e, write_json_frames_parallel process_single_frame order = Except.error e →
        ∃ pre p post,
          order = pre ++ p :: post ∧
            (∀ q ∈ pre, process_single_frame q.1 q.2 = Except.ok ()) ∧
            process_single_frame p.1 p.2 = Except.error e := by
  refine ⟨?_, ?_, ?_⟩
  · unfold parallel_pairs
    rw [map_fst_zip_take, List.length_drop, take_range']
  · rcases write_json_frames_parallel_spec process_single_frame order with
      ⟨hnil, hok⟩ | ⟨e, L, hcons, herr⟩
    · constructor
      · intro _ p hp
        cases hu : process_single_frame p.1 p.2 with
        | ok u =>
          cases u
          rfl
        | error e =>
          exfalso
          have hmem : e ∈ collected_errors process_single_frame order := by
            unfold collected_errors
            refine List.mem_filterMap.mpr ⟨p, horder.mem_iff.mpr hp, ?_⟩
            rw [hu]
            rfl
          rw [hnil] at hmem
          exact absurd hmem (List.not_mem_nil e)
      · intro _
        exact hok
    · constructor
      · intro hok'
        rw [hok'] at herr
        exact Except.noConfusion herr
      · intro hall
        exfalso
        have hnil2 : collected_errors process_single_frame order = [] := by
          unfold collected_errors
          refine List.filterMap_eq_nil_iff.mpr ?_
          intro q hq
          rw [hall q (horder.mem_iff.mp hq)]
          rfl
        rw [hnil2] at hcons
        exact List.noConfusion hcons
  · intro e' he'
    rcases write_json_frames_parallel_spec process_single_frame order with
      ⟨hnil, hok⟩ | ⟨e, L, hcons, herr⟩
    · rw [hok] at he'
      exact Except.noConfusion he'
    · rw [herr] at he'
      have heq : e = e' := by
        injection he' with h1
      unfold collected_errors at hcons
      obtain ⟨pre, p, post, hsplit, hpre, hp⟩ :=
        filterMap_eq_cons_split (fun q => error_of (process_single_frame q.1 q.2))
          order e L hcons
      refine ⟨pre, p, post, hsplit, ?_, ?_⟩
      · intro q hq
        have h0 := hpre q hq
        cases hu : process_single_frame q.1 q.2 with
        | ok u =>
          cases u
          rfl
        | error ee =>
          rw [hu] at h0
          exact Option.noConfusion h0
      · cases hu : process_single_frame p.1 p.2 with
        | ok u =>
          rw [hu] at hp
          exact Option.noConfusion hp
        | error ee =>
          rw [hu] at hp
          have hee : ee = e' := (Option.some.inj hp).trans heq
          rw [hee]

/-- Witness for C5 (amended): one frame, range [0, 1), an all-succeeding unit, and the
traversal order itself as completion order. -/
theorem C5_parallel_writer_witness :
    (parallel_pairs [MonoFrame.mk [0] 1 1] (0, 1)).map Prod.fst
        = List.range' 0 (min (1 - 0) (1 - 0)) ∧
      write_json_frames_parallel (fun _ _ => Except.ok ())
          (parallel_pairs [MonoFrame.mk [0] 1 1] (0, 1)) = Except.ok () := by
  have h := C5_parallel_writer [MonoFrame.mk [0] 1 1] (0, 1) (fun _ _ => Except.ok ())
    (parallel_pairs [MonoFrame.mk [0] 1 1] (0, 1)) (List.Perm.refl _)
  exact ⟨h.1, h.2.1.mpr (fun p _ => rfl)⟩

/-- C6 (refuting the claim; the code diverges from the spec): for `frame_end = Some e`
the source resolves `index_end` to `e - 1` (functions.rs:93-97, where the `Some`
binder is misleadingly named `frame_start`), and `index_end` is then used as the
EXCLUSIVE upper bound of the processed range (functions.rs:278), so the 0-based
index `e - 1` — the 1-based frame `e` the spec says is included — is never among
the attempted indices, for any frame list and any start index. -/
theorem C6_frame_end_excluded (e num_frames start : ℕ) :
    resolve_index_end (some e) num_frames = e - 1 ∧
      ∀ frames : List MonoFrame,
        e - 1 ∉ (parallel_pairs frames (start, e - 1)).map Prod.fst := by
  refine ⟨rfl, ?_⟩
  intro frames hmem
  unfold parallel_pairs at hmem
  rw [map_fst_zip_take, List.length_drop, take_range'] at hmem
  have h2 := List.mem_range'_1.mp hmem
  dsimp only at h2
  omega

/-- Witness for C6 at frame_end = Some 2 with 3 frames: the resolved end index is 1
and 0-based index 1 (1-based frame 2) is not attempted. -/
theorem C6_frame_end_excluded_witness :
    resolve_index_end (some 2) 3 = 2 - 1 ∧
      2 - 1 ∉ (parallel_pairs
          [MonoFrame.mk [0] 1 1, MonoFrame.mk [0] 1 1, MonoFrame.mk [0] 1 1]
          (0, 2 - 1)).map Prod.fst := by
  have h := C6_frame_end_excluded 2 3 0
  exact ⟨h.1, h.2 _⟩

/-- C7 (counterexample to the claim as stated): for the resolved range [0, 2) the
grid_cell_args array has 1 entry, not end - start = 2, because the source builds it
from `((index_range.0+1)..index_range.1)`, skipping nothing at the top but starting
one past the range start — and excluding `index_range.1` itself. -/
theorem C7_counterexample :
    (grid_cell_args (0, 2) "video_to_df:frames/").length = 1 ∧ (1 : ℕ) ≠ 2 - 0 := by
  refine ⟨?_, by decide⟩
  unfold grid_cell_args
  rw [List.length_map, List.length_range']
  rfl

/-- C7 (amended): for the resolved range [s, e) the grid_cell_args array has
exactly e - (s + 1) entries, and entry j is the namespace prefix followed by the
decimal digits of s + 1 + j; that is, the 1-based labels s+1, ..., e-1 appear, and
the label e for the final frame of the range is missing. -/
theorem C7_grid_cell_args_entries (s e : ℕ) (ns : String) :
    (grid_cell_args (s, e) ns).length = e - (s + 1) ∧
      ∀ j, j < e - (s + 1) →
        (grid_cell_args (s, e) ns).getD j "" = ns ++ toString (s + 1 + j) := by
  constructor
  · unfold grid_cell_args
    rw [List.length_map, List.length_range']
  · intro j hj
    unfold grid_cell_args
    exact getD_map_range_gen (fun i => ns ++ toString i) "" (s + 1) (e - (s + 1)) j hj

/-- Witness for C7 (amended) at range [0, 3) with namespace prefix "f": the first
entry is "f1". -/
theorem C7_grid_cell_args_entries_witness :
    (grid_cell_args (0, 3) "f").getD 0 "" = "f" ++ toString (0 + 1 + 0) :=
  (C7_grid_cell_args_entries 0 3 "f").2 0 (by decide)

end VideoToDF
